import Mathlib

/-!
Verification of the chatweb client against its design document.

This file gives a shallow embedding, in Lean 4, of the data model and the
pure logic of the chatweb repository (a small browser chat client written in
TypeScript), and proves or refutes the testable properties stated in its
specification.

Modelling conventions:

- JSON values are modelled by the inductive type `Json`.  JavaScript
  `undefined` (an absent field) is modelled by `Option.none` wherever a value
  can be absent; `null` is the constructor `Json.null`.  Property access
  `o.k` is `jsGet o k : Option Json`, which returns `none` on non-objects,
  matching the semantics of optional chaining used throughout the source.
- JSON numbers are kept as their raw lexemes (`Json.num raw`); none of the
  verified properties depends on floating-point arithmetic.
- Functions that can throw in JavaScript are modelled with `Option`/`Except`;
  a `try { ... } catch { ... }` block becomes a `match` on that result.
- Platform string primitives (`trim`, `toLowerCase`, `encodeURIComponent`,
  JSON parsing/serialization, WHATWG URL parsing restricted to absolute
  http/https URLs) are embedded as executable Lean functions following the
  ECMAScript/WHATWG specifications on the fragments the client exercises.
-/

/-! ### JSON values -/

inductive Json where
  | null : Json
  | bool (b : Bool) : Json
  | num (raw : String) : Json
  | str (s : String) : Json
  | arr (elems : List Json) : Json
  | obj (fields : List (String × Json)) : Json

mutual

def Json.beq : Json → Json → Bool
  | .null, .null => true
  | .bool a, .bool b => a == b
  | .num a, .num b => a == b
  | .str a, .str b => a == b
  | .arr xs, .arr ys => Json.beqList xs ys
  | .obj xs, .obj ys => Json.beqFields xs ys
  | _, _ => false

def Json.beqList : List Json → List Json → Bool
  | [], [] => true
  | x :: xs, y :: ys => Json.beq x y && Json.beqList xs ys
  | _, _ => false

def Json.beqFields : List (String × Json) → List (String × Json) → Bool
  | [], [] => true
  | (k, v) :: xs, (k', v') :: ys => k == k' && Json.beq v v' && Json.beqFields xs ys
  | _, _ => false

end

mutual

theorem Json.beq_iff : ∀ a b : Json, Json.beq a b = true ↔ a = b
  | .null, .null => by simp [Json.beq]
  | .bool a, .bool b => by simp [Json.beq]
  | .num a, .num b => by simp [Json.beq]
  | .str a, .str b => by simp [Json.beq]
  | .arr xs, .arr ys => by
      simp only [Json.beq, Json.arr.injEq]
      exact Json.beqList_iff xs ys
  | .obj xs, .obj ys => by
      simp only [Json.beq, Json.obj.injEq]
      exact Json.beqFields_iff xs ys
  | .null, .bool _ | .null, .num _ | .null, .str _ | .null, .arr _ | .null, .obj _
  | .bool _, .null | .bool _, .num _ | .bool _, .str _ | .bool _, .arr _ | .bool _, .obj _
  | .num _, .null | .num _, .bool _ | .num _, .str _ | .num _, .arr _ | .num _, .obj _
  | .str _, .null | .str _, .bool _ | .str _, .num _ | .str _, .arr _ | .str _, .obj _
  | .arr _, .null | .arr _, .bool _ | .arr _, .num _ | .arr _, .str _ | .arr _, .obj _
  | .obj _, .null | .obj _, .bool _ | .obj _, .num _ | .obj _, .str _ | .obj _, .arr _ => by
      simp [Json.beq]

theorem Json.beqList_iff : ∀ xs ys : List Json, Json.beqList xs ys = true ↔ xs = ys
  | [], [] => by simp [Json.beqList]
  | x :: xs, y :: ys => by
      simp only [Json.beqList, Bool.and_eq_true, List.cons.injEq]
      exact and_congr (Json.beq_iff x y) (Json.beqList_iff xs ys)
  | [], _ :: _ => by simp [Json.beqList]
  | _ :: _, [] => by simp [Json.beqList]

theorem Json.beqFields_iff : ∀ xs ys : List (String × Json), Json.beqFields xs ys = true ↔ xs = ys
  | [], [] => by simp [Json.beqFields]
  | (k, v) :: xs, (k', v') :: ys => by
      simp only [Json.beqFields, Bool.and_eq_true, List.cons.injEq, Prod.mk.injEq,
        beq_iff_eq]
      rw [Json.beq_iff v v', Json.beqFields_iff xs ys]
  | [], _ :: _ => by simp [Json.beqFields]
  | _ :: _, [] => by simp [Json.beqFields]

end

instance : DecidableEq Json := fun a b =>
  decidable_of_iff (Json.beq a b = true) (Json.beq_iff a b)

/-- JavaScript property access `o?.[k]`: `none` (undefined) unless `o` is an
object with field `k`.  Array index/`length` lookups never occur with the
string keys used by the client, so non-objects uniformly yield `none`. -/
def jsGet (j : Json) (k : String) : Option Json :=
  match j with
  | Json.obj fields => fields.lookup k
  | _ => none

/-- Optional chaining on a possibly-absent value: `x?.k`. -/
def jsGetOpt (j : Option Json) (k : String) : Option Json :=
  j.bind (fun v => jsGet v k)

/-! ### ECMAScript string primitives -/

/-- ECMAScript white space and line terminators (the set removed by
`String.prototype.trim`). -/
def isJsWhitespace (c : Char) : Bool :=
  c = ' ' || c = '\t' || c = '\n' || c = '\r' ||
  c = '\x0b' || c = '\x0c' || c = ' ' || c = ' ' ||
  (' ' ≤ c && c ≤ ' ') || c = ' ' || c = ' ' ||
  c = ' ' || c = ' ' || c = '　' || c = '﻿'

/-- `String.prototype.trim`. -/
def jsTrim (s : String) : String :=
  String.mk (((s.toList.dropWhile isJsWhitespace).reverse.dropWhile isJsWhitespace).reverse)

/-- ASCII lowering, the fragment of `String.prototype.toLowerCase` exercised
by the client (commands, schemes and hosts it compares are ASCII). -/
def jsToLower (s : String) : String :=
  String.mk (s.toList.map Char.toLower)

mutual

/-- ECMAScript `String(v)` on a JSON value: `null`/booleans print their
keyword, numbers print their lexeme, arrays join their elements with commas
(`null` printing empty inside arrays), objects print `[object Object]`. -/
def jsToString : Json → String
  | .null => "null"
  | .bool b => if b then "true" else "false"
  | .num raw => raw
  | .str s => s
  | .arr xs => String.intercalate "," (jsToStringElems xs)
  | .obj _ => "[object Object]"

def jsToStringElems : List Json → List String
  | [] => []
  | .null :: rest => "" :: jsToStringElems rest
  | x :: rest => jsToString x :: jsToStringElems rest

end

/-- JavaScript truthiness of a JSON value.  A number is falsy exactly when it
denotes zero, i.e. when every digit of its mantissa lexeme is `0`. -/
def jsTruthy : Json → Bool
  | .null => false
  | .bool b => b
  | .str s => s ≠ ""
  | .num raw => ¬ ((raw.toList.takeWhile (fun c => c ≠ 'e' ∧ c ≠ 'E')).filter Char.isDigit).all (· = '0')
  | .arr _ => true
  | .obj _ => true

/-! ### client.ts — answer-segment parser

Embedding of `toAnswerItems`, `extractDisparoItems`, `itemsToText` and
`extractAssistantAnswerText` from `src/api/client.ts`.  A
`DisparoAnswerItem` is a JSON value (string elements having been converted
to `{type:"text", message}` objects). -/

/-- The text segment produced for a string element. -/
def textItem (s : String) : Json :=
  Json.obj [("type", Json.str "text"), ("message", Json.str s)]

/-- One step of the array branch of `toAnswerItems`: strings become text
segments, objects (including arrays, which are objects in JavaScript) pass
through, everything else maps to `null` and is filtered out. -/
def toAnswerItemOne (x : Json) : Option Json :=
  match x with
  | Json.str s => some (textItem s)
  | Json.null => none
  | Json.bool _ => none
  | Json.num _ => none
  | Json.arr xs => some (Json.arr xs)
  | Json.obj fs => some (Json.obj fs)

/-- `toAnswerItems` from client.ts.  The argument is the raw `answer` field;
`none` models an absent field. -/
def toAnswerItems : Option Json → List Json
  | none => []
  | some (Json.arr xs) => xs.filterMap toAnswerItemOne
  | some (Json.str s) => if jsTrim s = "" then [] else [textItem s]
  | some Json.null => []
  | some (Json.bool _) => []
  | some (Json.num _) => []
  | some (Json.obj fs) => [Json.obj fs]

/-- `extractDisparoItems` from client.ts: try `data?.disparo?.answer`, fall
back to `data?.assistant_response?.answer` when the first yields nothing. -/
def extractDisparoItems (data : Json) : List Json :=
  let d := jsGet data "data"
  let items := toAnswerItems (jsGetOpt (jsGetOpt d "disparo") "answer")
  if items = [] then toAnswerItems (jsGetOpt (jsGetOpt d "assistant_response") "answer")
  else items

/-- The text contributed by one item in `itemsToText`: the `message` of a
`{type:"text"}` object when it is a string, `""` otherwise. -/
def itemTextOrEmpty (it : Json) : String :=
  match jsGet it "type" with
  | some (Json.str t) =>
      if t = "text" then
        match jsGet it "message" with
        | some (Json.str m) => m
        | _ => ""
      else ""
  | _ => ""

/-- `itemsToText` from client.ts. -/
def itemsToText (items : List Json) : String :=
  jsTrim (String.intercalate "\n\n" (((items.map itemTextOrEmpty).filter (fun t => t ≠ ""))))

/-! ### Claims C1 and C2 — the answer-segment parser on string answers -/

theorem toAnswerItems_strings (ss : List String) :
    toAnswerItems (some (Json.arr (ss.map Json.str))) = ss.map textItem := by
  simp only [toAnswerItems, List.filterMap_map]
  have h : (toAnswerItemOne ∘ Json.str) = (some ∘ textItem) := by
    funext s; rfl
  rw [h, List.filterMap_eq_map]

/-- C1: whenever the backend reply's `data.disparo.answer` is a non-empty
array of strings, `extractDisparoItems` yields exactly one text segment per
string, each carrying that string as its `message`, in the same order. -/
theorem claim_C1 (data : Json) (ss : List String)
    (hne : ss ≠ [])
    (hans : jsGetOpt (jsGetOpt (jsGet data "data") "disparo") "answer"
      = some (Json.arr (ss.map Json.str))) :
    extractDisparoItems data = ss.map textItem := by
  have hmap : ss.map textItem ≠ [] := by
    intro h
    exact hne (List.map_eq_nil_iff.mp h)
  simp only [extractDisparoItems, hans, toAnswerItems_strings]
  simp [hmap]

/-- Witness for C1 at a concrete two-string reply. -/
theorem claim_C1_witness :
    extractDisparoItems
      (Json.obj [("success", Json.bool true), ("provider", Json.str "simple"),
        ("data", Json.obj [("disparo",
          Json.obj [("answer", Json.arr [Json.str "ola", Json.str "mundo"])])])])
      = [textItem "ola", textItem "mundo"] :=
  claim_C1 _ ["ola", "mundo"] (by decide) (by decide)

/-- C2 fails as stated: for a whitespace-only `assistant_response.answer`
string the parser yields no segment at all (the single-string branch of
`toAnswerItems` requires a non-empty trim), rather than one text segment. -/
theorem claim_C2_counterexample :
    (jsGetOpt (jsGetOpt (jsGet
        (Json.obj [("success", Json.bool true), ("provider", Json.str "simple"),
          ("data", Json.obj [("assistant_response", Json.obj [("answer", Json.str " ")])])])
        "data") "disparo") "answer" = none)
    ∧ (jsGetOpt (jsGetOpt (jsGet
        (Json.obj [("success", Json.bool true), ("provider", Json.str "simple"),
          ("data", Json.obj [("assistant_response", Json.obj [("answer", Json.str " ")])])])
        "data") "assistant_response") "answer" = some (Json.str " "))
    ∧ extractDisparoItems
        (Json.obj [("success", Json.bool true), ("provider", Json.str "simple"),
          ("data", Json.obj [("assistant_response", Json.obj [("answer", Json.str " ")])])])
      ≠ [textItem " "] := by
  refine ⟨by decide, by decide, ?_⟩
  decide

/-- C2, amended: with no `disparo.answer` and a string
`assistant_response.answer` whose trim is non-empty, the parser yields
exactly one text segment equal to that string.  (Empty and whitespace-only
strings yield no segment.) -/
theorem claim_C2_amended (data : Json) (s : String)
    (hdisp : jsGetOpt (jsGetOpt (jsGet data "data") "disparo") "answer" = none)
    (hans : jsGetOpt (jsGetOpt (jsGet data "data") "assistant_response") "answer"
      = some (Json.str s))
    (hs : jsTrim s ≠ "") :
    extractDisparoItems data = [textItem s] := by
  simp only [extractDisparoItems, hdisp, hans]
  simp [toAnswerItems, hs]

/-- Witness for the amended C2. -/
theorem claim_C2_amended_witness :
    extractDisparoItems
      (Json.obj [("success", Json.bool true), ("provider", Json.str "simple"),
        ("data", Json.obj [("assistant_response", Json.obj [("answer", Json.str "oi")])])])
      = [textItem "oi"] :=
  claim_C2_amended _ "oi" (by decide) (by decide) (by decide)

/-! ### A model of ECMAScript JSON.parse / JSON.stringify

`JSON.parse` is embedded as a fuel-indexed recursive-descent parser over the
character list of the input (fuel only bounds nesting/iteration; the top
entry point supplies more fuel than any input of that length can consume).
Escape sequences in string literals that denote code points in the surrogate
range are mapped to U+FFFD (Lean strings hold scalar values, JavaScript
strings code units; no property verified here involves surrogate escapes).
Numbers are validated against the JSON grammar and kept as raw lexemes. -/

def isJsonWs (c : Char) : Bool :=
  c = ' ' || c = '\t' || c = '\n' || c = '\r'

def skipWs : List Char → List Char
  | [] => []
  | c :: rest => if isJsonWs c then skipWs rest else c :: rest

def hexDigitVal (c : Char) : Option Nat :=
  if '0' ≤ c ∧ c ≤ '9' then some (c.toNat - 48)
  else if 'a' ≤ c ∧ c ≤ 'f' then some (c.toNat - 87)
  else if 'A' ≤ c ∧ c ≤ 'F' then some (c.toNat - 55)
  else none

/-- Decode table for a single-character escape: `none` when the escape is not
one of the simple escapes. -/
def simpleEscape (e : Char) : Option Char :=
  if e = '"' then some '"'
  else if e = '\\' then some '\\'
  else if e = '/' then some '/'
  else if e = 'b' then some '\x08'
  else if e = 'f' then some '\x0c'
  else if e = 'n' then some '\n'
  else if e = 'r' then some '\r'
  else if e = 't' then some '\t'
  else none

/-- Body of a JSON string literal (after the opening quote): walks the input
with an accumulator of decoded characters in reverse and returns the decoded
characters with the input after the closing quote.  The fuel (first
argument) only bounds the number of steps; every step consumes at least one
input character, so `length + 1` fuel is always sufficient — see
`parseJString`, the entry point. -/
def parseJStringBody : Nat → List Char → List Char → Option (List Char × List Char)
  | 0, _, _ => none
  | _ + 1, [], _ => none
  | fuel + 1, c :: rest, acc =>
    if c = '"' then some (acc.reverse, rest)
    else if c = '\\' then
      match rest with
      | [] => none
      | e :: r =>
        match simpleEscape e with
        | some d => parseJStringBody fuel r (d :: acc)
        | none =>
          if e = 'u' then
            match r with
            | h1 :: h2 :: h3 :: h4 :: r2 =>
              match hexDigitVal h1, hexDigitVal h2, hexDigitVal h3, hexDigitVal h4 with
              | some a, some b, some c2, some d2 =>
                let n := ((a * 16 + b) * 16 + c2) * 16 + d2
                if 0xD800 ≤ n ∧ n ≤ 0xDFFF then parseJStringBody fuel r2 ('�' :: acc)
                else parseJStringBody fuel r2 (Char.ofNat n :: acc)
              | _, _, _, _ => none
            | _ => none
          else none
    else if c.toNat < 0x20 then none
    else parseJStringBody fuel rest (c :: acc)

/-- A JSON string literal body, with the always-sufficient fuel supplied. -/
def parseJString (cs : List Char) : Option (List Char × List Char) :=
  parseJStringBody (cs.length + 1) cs []

def takeDigits (cs : List Char) : List Char × List Char :=
  (cs.takeWhile Char.isDigit, cs.dropWhile Char.isDigit)

/-- Exponent part of a JSON number (empty allowed). -/
def jsonExpPart (acc : List Char) (cs : List Char) : Option (List Char × List Char) :=
  match cs with
  | e :: r =>
    if e = 'e' ∨ e = 'E' then
      let sr : List Char × List Char :=
        match r with
        | '+' :: rr => (['+'], rr)
        | '-' :: rr => (['-'], rr)
        | _ => ([], r)
      let dr := takeDigits sr.2
      if dr.1 = [] then none else some (acc ++ e :: sr.1 ++ dr.1, dr.2)
    else some (acc, cs)
  | [] => some (acc, [])

/-- Fraction-then-exponent part of a JSON number. -/
def jsonFracPart (acc : List Char) (cs : List Char) : Option (List Char × List Char) :=
  match cs with
  | '.' :: r =>
    let dr := takeDigits r
    if dr.1 = [] then none else jsonExpPart (acc ++ '.' :: dr.1) dr.2
  | _ => jsonExpPart acc cs

/-- A JSON number lexeme and the remaining input. -/
def parseJNumber (cs : List Char) : Option (List Char × List Char) :=
  let sr : List Char × List Char :=
    match cs with
    | '-' :: r => (['-'], r)
    | _ => ([], cs)
  match sr.2 with
  | '0' :: r => jsonFracPart (sr.1 ++ ['0']) r
  | c :: r =>
    if c.isDigit then
      let dr := takeDigits r
      jsonFracPart (sr.1 ++ c :: dr.1) dr.2
    else none
  | [] => none

def matchLit (lit : List Char) (cs : List Char) : Option (List Char) :=
  if lit.isPrefixOf cs then some (cs.drop lit.length) else none

/-- Duplicate-key assignment: last value wins, first position kept, as in a
JavaScript object build-up. -/
def jsSetField : List (String × Json) → String → Json → List (String × Json)
  | [], k, v => [(k, v)]
  | (k', v') :: rest, k, v =>
    if k' = k then (k', v) :: rest else (k', v') :: jsSetField rest k v

mutual

def jsonParseVal : Nat → List Char → Option (Json × List Char)
  | 0, _ => none
  | fuel + 1, cs =>
    match skipWs cs with
    | [] => none
    | c :: r =>
      if c = 'n' then (matchLit ['u', 'l', 'l'] r).map (fun rest => (Json.null, rest))
      else if c = 't' then (matchLit ['r', 'u', 'e'] r).map (fun rest => (Json.bool true, rest))
      else if c = 'f' then (matchLit ['a', 'l', 's', 'e'] r).map (fun rest => (Json.bool false, rest))
      else if c = '"' then (parseJString r).map (fun p => (Json.str (String.mk p.1), p.2))
      else if c = '[' then
        match skipWs r with
        | [] => none
        | c2 :: r2 =>
          if c2 = ']' then some (Json.arr [], r2)
          else (jsonParseElems fuel (c2 :: r2)).map (fun p => (Json.arr p.1, p.2))
      else if c = '{' then
        match skipWs r with
        | [] => none
        | c2 :: r2 =>
          if c2 = '}' then some (Json.obj [], r2)
          else (jsonParseMembers fuel [] (c2 :: r2)).map (fun p => (Json.obj p.1, p.2))
      else if c = '-' ∨ c.isDigit then
        (parseJNumber (c :: r)).map (fun p => (Json.num (String.mk p.1), p.2))
      else none

def jsonParseElems : Nat → List Char → Option (List Json × List Char)
  | 0, _ => none
  | fuel + 1, cs =>
    match jsonParseVal fuel cs with
    | none => none
    | some (v, rest) =>
      match skipWs rest with
      | [] => none
      | c2 :: r2 =>
        if c2 = ',' then (jsonParseElems fuel r2).map (fun p => (v :: p.1, p.2))
        else if c2 = ']' then some ([v], r2)
        else none

def jsonParseMembers :
    Nat → List (String × Json) → List Char → Option (List (String × Json) × List Char)
  | 0, _, _ => none
  | fuel + 1, acc, cs =>
    match skipWs cs with
    | [] => none
    | c :: r =>
      if c = '"' then
        match parseJString r with
        | none => none
        | some (kcs, rest) =>
          match skipWs rest with
          | [] => none
          | c2 :: r2 =>
            if c2 = ':' then
              match jsonParseVal fuel r2 with
              | none => none
              | some (v, rest2) =>
                match skipWs rest2 with
                | [] => none
                | c3 :: r3 =>
                  if c3 = ',' then jsonParseMembers fuel (jsSetField acc (String.mk kcs) v) r3
                  else if c3 = '}' then some (jsSetField acc (String.mk kcs) v, r3)
                  else none
            else none
      else none

end

/-- `JSON.parse`: `none` models a thrown SyntaxError. -/
def jsonParse (s : String) : Option Json :=
  match jsonParseVal (2 * s.length + 8) s.toList with
  | some (j, rest) => if skipWs rest = [] then some j else none
  | none => none

def hexDigitChar (n : Nat) : Char :=
  if n < 10 then Char.ofNat (48 + n) else Char.ofNat (97 + (n - 10))

/-- The escape `JSON.stringify` applies to one character of a string. -/
def jsonEscapeChar (c : Char) : List Char :=
  if c = '"' then ['\\', '"']
  else if c = '\\' then ['\\', '\\']
  else if c = '\x08' then ['\\', 'b']
  else if c = '\x0c' then ['\\', 'f']
  else if c = '\n' then ['\\', 'n']
  else if c = '\r' then ['\\', 'r']
  else if c = '\t' then ['\\', 't']
  else if c.toNat < 0x20 then
    ['\\', 'u', '0', '0', hexDigitChar (c.toNat / 16), hexDigitChar (c.toNat % 16)]
  else [c]

def escapeChars (s : String) : List Char :=
  (s.toList.map jsonEscapeChar).flatten

mutual

/-- Characters of `JSON.stringify` applied to a JSON value (no `undefined`,
no cycles, so serialization is total). -/
def stringifyChars : Json → List Char
  | .null => ['n', 'u', 'l', 'l']
  | .bool b => if b then ['t', 'r', 'u', 'e'] else ['f', 'a', 'l', 's', 'e']
  | .num raw => raw.toList
  | .str s => '"' :: escapeChars s ++ ['"']
  | .arr xs => '[' :: stringifyArrChars xs ++ [']']
  | .obj fs => '{' :: stringifyObjChars fs ++ ['}']

def stringifyArrChars : List Json → List Char
  | [] => []
  | x :: xs =>
    stringifyChars x ++ (match xs with | [] => [] | _ => ',' :: stringifyArrChars xs)

def stringifyObjChars : List (String × Json) → List Char
  | [] => []
  | (k, v) :: fs =>
    ('"' :: escapeChars k ++ '"' :: ':' :: stringifyChars v)
      ++ (match fs with | [] => [] | _ => ',' :: stringifyObjChars fs)

end

/-- `JSON.stringify`. -/
def jsonStringify (j : Json) : String :=
  String.mk (stringifyChars j)

/-! ### Serialize/parse roundtrip lemmas used by the storage claim -/

theorem string_mk_toList (s : String) : String.mk s.toList = s := rfl

theorem hexDigitVal_hexDigitChar (n : Nat) (h : n < 16) :
    hexDigitVal (hexDigitChar n) = some n := by
  interval_cases n <;> decide

theorem char_ofNat_toNat (c : Char) : Char.ofNat c.toNat = c :=
  Char.ofNat_toNat c

theorem jsonEscapeChar_length_pos (c : Char) : 0 < (jsonEscapeChar c).length := by
  unfold jsonEscapeChar
  split_ifs <;> simp

theorem length_le_flatten_escape (cs : List Char) :
    cs.length ≤ ((cs.map jsonEscapeChar).flatten).length := by
  induction cs with
  | nil => simp
  | cons c cs ih =>
    have := jsonEscapeChar_length_pos c
    simp only [List.map_cons, List.flatten_cons, List.length_append, List.length_cons]
    omega

theorem parseJStringBody_escape :
    ∀ (cs : List Char) (fuel : Nat), cs.length < fuel →
      ∀ (acc rest : List Char),
      parseJStringBody fuel ((cs.map jsonEscapeChar).flatten ++ '"' :: rest) acc
        = some (acc.reverse ++ cs, rest)
  | [], fuel, hf => by
    intro acc rest
    obtain ⟨f, rfl⟩ : ∃ f, fuel = f + 1 := ⟨fuel - 1, by omega⟩
    simp [parseJStringBody]
  | c :: cs, fuel, hf => by
    intro acc rest
    obtain ⟨f, rfl⟩ : ∃ f, fuel = f + 1 := ⟨fuel - 1, by omega⟩
    have hf' : cs.length < f := by
      simp only [List.length_cons] at hf
      omega
    have ih := parseJStringBody_escape cs f hf'
    simp only [List.map_cons, List.flatten_cons, List.append_assoc]
    by_cases h1 : c = '"'
    · subst h1
      simp [jsonEscapeChar, parseJStringBody, simpleEscape, ih]
    · by_cases h2 : c = '\\'
      · subst h2
        simp [jsonEscapeChar, parseJStringBody, simpleEscape, ih]
      · by_cases hb : c = '\x08'
        · subst hb
          simp [jsonEscapeChar, parseJStringBody, simpleEscape, ih]
        · by_cases hff : c = '\x0c'
          · subst hff
            simp [jsonEscapeChar, parseJStringBody, simpleEscape, ih]
          · by_cases hn : c = '\n'
            · subst hn
              simp [jsonEscapeChar, parseJStringBody, simpleEscape, ih]
            · by_cases hr : c = '\r'
              · subst hr
                simp [jsonEscapeChar, parseJStringBody, simpleEscape, ih]
              · by_cases ht : c = '\t'
                · subst ht
                  simp [jsonEscapeChar, parseJStringBody, simpleEscape, ih]
                · by_cases hu : c.toNat < 0x20
                  · have hdiv : c.toNat / 16 < 16 := by omega
                    have hmod : c.toNat % 16 < 16 := Nat.mod_lt _ (by omega)
                    have h0 : hexDigitVal '0' = some 0 := by decide
                    have hval : c.toNat / 16 * 16 + c.toNat % 16 = c.toNat := by omega
                    simp only [jsonEscapeChar, h1, h2, hb, hff, hn, hr, ht, hu, if_false,
                      if_true, ite_false, ite_true, List.cons_append, List.nil_append]
                    simp [parseJStringBody, simpleEscape,
                      h0, hexDigitVal_hexDigitChar _ hdiv, hexDigitVal_hexDigitChar _ hmod,
                      hval, char_ofNat_toNat, ih,
                      show ¬ (0xD800 ≤ c.toNat / 16 * 16 + c.toNat % 16
                        ∧ c.toNat / 16 * 16 + c.toNat % 16 ≤ 0xDFFF) by omega]
                    intro h
                    exact absurd h (by omega)
                  · simp only [jsonEscapeChar, h1, h2, hb, hff, hn, hr, ht, hu, if_false,
                      ite_false, List.cons_append, List.nil_append]
                    simp [parseJStringBody, h1, h2, hu, ih]

theorem parseJString_quote (s : String) (rest : List Char) :
    parseJString (escapeChars s ++ '"' :: rest) = some (s.toList, rest) := by
  unfold parseJString
  have hge := length_le_flatten_escape s.toList
  have hlen : s.toList.length < (escapeChars s ++ '"' :: rest).length + 1 := by
    simp only [escapeChars, List.length_append, List.length_cons]
    omega
  simpa [escapeChars] using parseJStringBody_escape s.toList _ hlen [] rest

/-- Object fields whose values are all strings (the shape of a persisted
settings object). -/
def strFields (fs : List (String × String)) : List (String × Json) :=
  fs.map (fun kv => (kv.1, Json.str kv.2))

theorem jsonParseMembers_last (n : Nat) (acc : List (String × Json)) (k v : String)
    (rest : List Char) :
    jsonParseMembers (n + 1 + 1) acc
      ('"' :: (escapeChars k ++ '"' :: ':' :: '"' :: (escapeChars v ++ '"' :: '}' :: rest)))
      = some (jsSetField acc k (Json.str v), rest) := by
  simp [jsonParseMembers, jsonParseVal, skipWs, isJsonWs, parseJString_quote,
    string_mk_toList]

theorem jsonParseMembers_step (g : Nat) (acc : List (String × Json)) (k v : String)
    (tail : List Char) :
    jsonParseMembers (g + 1 + 1) acc
      ('"' :: (escapeChars k ++ '"' :: ':' :: '"' :: (escapeChars v ++ '"' :: ',' :: tail)))
      = jsonParseMembers (g + 1) (jsSetField acc k (Json.str v)) tail := by
  rw [jsonParseMembers]
  simp [jsonParseVal, skipWs, isJsonWs, parseJString_quote, string_mk_toList]

theorem jsonParseMembers_strFields :
    ∀ (fs : List (String × String)) (n : Nat) (acc : List (String × Json)) (rest : List Char),
      fs ≠ [] →
      jsonParseMembers (n + 2 * fs.length) acc (stringifyObjChars (strFields fs) ++ '}' :: rest)
        = some ((strFields fs).foldl (fun a kv => jsSetField a kv.1 kv.2) acc, rest)
  | [], _, _, _, h => absurd rfl h
  | (k, v) :: fs, n, acc, rest, _ => by
    cases fs with
    | nil =>
      have h2 : n + 2 * ([(k, v)] : List (String × String)).length = n + 1 + 1 := by
        simp
      rw [h2]
      simp only [strFields, List.map_cons, List.map_nil, stringifyObjChars, stringifyChars,
        List.append_assoc, List.cons_append, List.nil_append, List.append_nil]
      rw [jsonParseMembers_last]
      simp
    | cons kv2 fs2 =>
      obtain ⟨k2, v2⟩ := kv2
      have h2 : n + 2 * (((k, v) :: (k2, v2) :: fs2 : List (String × String))).length
          = (n + 2 * (((k2, v2) :: fs2 : List (String × String))).length) + 1 + 1 := by
        simp [List.length_cons]
        ring
      rw [h2]
      simp only [strFields, List.map_cons, stringifyObjChars, stringifyChars,
        List.append_assoc, List.cons_append, List.nil_append]
      rw [jsonParseMembers_step]
      have h3 : n + 2 * (((k2, v2) :: fs2 : List (String × String))).length + 1
          = (n + 1) + 2 * (((k2, v2) :: fs2 : List (String × String))).length := by
        ring
      rw [h3]
      have ih := jsonParseMembers_strFields ((k2, v2) :: fs2) (n + 1)
        (jsSetField acc k (Json.str v)) rest (by simp)
      simp only [strFields, List.map_cons, stringifyObjChars, stringifyChars,
        List.append_assoc, List.cons_append, List.nil_append] at ih
      rw [ih]
      simp [strFields]

theorem jsonParseVal_obj_strFields (fs : List (String × String)) (n : Nat) (rest : List Char)
    (hne : fs ≠ []) :
    jsonParseVal (n + 2 * fs.length + 1)
      ('{' :: (stringifyObjChars (strFields fs) ++ '}' :: rest))
      = some (Json.obj ((strFields fs).foldl (fun a kv => jsSetField a kv.1 kv.2) []), rest) := by
  have hm := jsonParseMembers_strFields fs n [] rest hne
  cases fs with
  | nil => exact absurd rfl hne
  | cons kv fs' =>
    obtain ⟨k, v⟩ := kv
    rw [jsonParseVal]
    simp only [strFields, List.map_cons, stringifyObjChars, stringifyChars,
      List.append_assoc, List.cons_append, List.nil_append, List.length_cons,
      List.foldl_cons] at hm ⊢
    simp [skipWs, isJsonWs, hm]

theorem length_le_stringifyObjChars_strFields (fs : List (String × String)) :
    fs.length ≤ (stringifyObjChars (strFields fs)).length := by
  induction fs with
  | nil => simp [strFields, stringifyObjChars]
  | cons kv fs ih =>
    obtain ⟨k, v⟩ := kv
    cases fs with
    | nil => simp [strFields, stringifyObjChars, stringifyChars]
    | cons kv2 fs2 =>
      simp only [strFields, List.map_cons, stringifyObjChars, stringifyChars,
        List.length_cons, List.length_append] at ih ⊢
      omega

theorem jsSetField_of_not_mem (acc : List (String × Json)) (k : String) (v : Json)
    (h : ∀ p ∈ acc, p.1 ≠ k) : jsSetField acc k v = acc ++ [(k, v)] := by
  induction acc with
  | nil => rfl
  | cons p acc ih =>
    obtain ⟨k', v'⟩ := p
    have hne : k' ≠ k := h (k', v') (List.mem_cons_self _ _)
    simp [jsSetField, hne, ih (fun q hq => h q (List.mem_cons_of_mem _ hq))]

theorem foldl_jsSetField_nodup :
    ∀ (fs acc : List (String × Json)), (((acc ++ fs).map Prod.fst)).Nodup →
      fs.foldl (fun a kv => jsSetField a kv.1 kv.2) acc = acc ++ fs
  | [], acc, _ => by simp
  | (k, v) :: fs, acc, h => by
    have hmaps : ((acc.map Prod.fst) ++ (k :: fs.map Prod.fst)).Nodup := by
      simpa using h
    have hk : ∀ p ∈ acc, p.1 ≠ k := by
      intro p hp
      have hdisj := (List.nodup_append.mp hmaps).2.2
      intro hEq
      exact hdisj (hEq ▸ List.mem_map_of_mem Prod.fst hp) (List.mem_cons_self _ _)
    rw [List.foldl_cons]
    simp only
    rw [jsSetField_of_not_mem acc k v hk]
    have h2 : (((acc ++ [(k, v)]) ++ fs).map Prod.fst).Nodup := by
      rw [List.append_assoc]
      simpa using h
    rw [foldl_jsSetField_nodup fs (acc ++ [(k, v)]) h2, List.append_assoc]
    simp

theorem jsonParse_stringify_strFields (fs : List (String × String)) (hne : fs ≠ [])
    (hnd : (fs.map Prod.fst).Nodup) :
    jsonParse (jsonStringify (Json.obj (strFields fs))) = some (Json.obj (strFields fs)) := by
  have hfold : (strFields fs).foldl (fun a kv => jsSetField a kv.1 kv.2) [] = strFields fs := by
    have : ((([] : List (String × Json)) ++ strFields fs).map Prod.fst).Nodup := by
      simpa [strFields, List.map_map, Function.comp] using hnd
    simpa using foldl_jsSetField_nodup (strFields fs) [] this
  have hlen := length_le_stringifyObjChars_strFields fs
  have hs : (jsonStringify (Json.obj (strFields fs))).toList
      = '{' :: (stringifyObjChars (strFields fs) ++ '}' :: []) := by
    simp only [jsonStringify, stringifyChars]
    simp [List.cons_append]
  have hslen : (jsonStringify (Json.obj (strFields fs))).length
      = (stringifyObjChars (strFields fs)).length + 2 := by
    have h := congrArg List.length hs
    simpa using h
  unfold jsonParse
  rw [hs, hslen]
  rw [show 2 * ((stringifyObjChars (strFields fs)).length + 2) + 8
      = (2 * (stringifyObjChars (strFields fs)).length + 11 - 2 * fs.length)
        + 2 * fs.length + 1 from by omega]
  rw [jsonParseVal_obj_strFields fs _ [] hne]
  simp [skipWs, hfold]

/-! ### types.ts ChatSettings and utils/storage.ts

Local storage is modelled by the optional string stored under the fixed key
chatweb:settings:v1 (the only key the module touches). -/

/-- `ChatSettings` from types.ts; the optional fields are `Option`s. -/
structure ChatSettings where
  companyId : String
  customerPhone : String
  customerName : Option String := none
  apiBaseUrl : Option String := none

/-- The key/value pairs `JSON.stringify` serializes for a settings object, in
property insertion order; absent optional fields are omitted. -/
def settingsFields (s : ChatSettings) : List (String × String) :=
  [("companyId", s.companyId), ("customerPhone", s.customerPhone)]
    ++ (match s.customerName with | some nm => [("customerName", nm)] | none => [])
    ++ (match s.apiBaseUrl with | some b => [("apiBaseUrl", b)] | none => [])

/-- The JSON object a settings value serializes to / parses back as. -/
def settingsToJson (s : ChatSettings) : Json :=
  Json.obj (strFields (settingsFields s))

/-- `saveSettings` from storage.ts: stores `JSON.stringify(s)`. -/
def saveSettings (s : ChatSettings) (_store : Option String) : Option String :=
  some (jsonStringify (settingsToJson s))

/-- `clearSettings` from storage.ts: removes the entry. -/
def clearSettings (_store : Option String) : Option String :=
  none

/-- `loadSettings` from storage.ts: an absent or empty entry (both falsy)
loads nothing; otherwise the stored string is JSON-parsed, a parse failure
being caught and loading nothing.  The result is the parsed JSON value the
code casts to `ChatSettings`. -/
def loadSettings (store : Option String) : Option Json :=
  match store with
  | none => none
  | some raw => if raw = "" then none else jsonParse raw

theorem settingsFields_ne_nil (s : ChatSettings) : settingsFields s ≠ [] := by
  rcases s with ⟨c, p, nm, b⟩
  rcases nm <;> rcases b <;> simp [settingsFields]

theorem settingsFields_keys_nodup (s : ChatSettings) :
    ((settingsFields s).map Prod.fst).Nodup := by
  rcases s with ⟨c, p, nm, b⟩
  rcases nm <;> rcases b <;> simp [settingsFields]

theorem jsonStringify_settings_ne_empty (s : ChatSettings) :
    jsonStringify (settingsToJson s) ≠ "" := by
  intro h
  have h2 := congrArg String.toList h
  simp only [settingsToJson, jsonStringify, stringifyChars] at h2
  simp at h2

/-- C6: the local-storage round-trip.  Saving settings and loading gives
back exactly the serialized settings object (every field reads back as the
saved component, optional fields included); clearing makes the next load
return nothing. -/
theorem claim_C6 (s : ChatSettings) (store : Option String) :
    loadSettings (saveSettings s store) = some (settingsToJson s)
    ∧ jsGet (settingsToJson s) "companyId" = some (Json.str s.companyId)
    ∧ jsGet (settingsToJson s) "customerPhone" = some (Json.str s.customerPhone)
    ∧ jsGet (settingsToJson s) "customerName" = s.customerName.map Json.str
    ∧ jsGet (settingsToJson s) "apiBaseUrl" = s.apiBaseUrl.map Json.str
    ∧ loadSettings (clearSettings store) = none := by
  refine ⟨?_, ?_, ?_, ?_, ?_, rfl⟩
  · show (if jsonStringify (settingsToJson s) = "" then none
        else jsonParse (jsonStringify (settingsToJson s))) = some (settingsToJson s)
    rw [if_neg (jsonStringify_settings_ne_empty s)]
    exact jsonParse_stringify_strFields (settingsFields s) (settingsFields_ne_nil s)
      (settingsFields_keys_nodup s)
  · rcases s with ⟨c, p, nm, b⟩
    rcases nm <;> rcases b <;>
      simp [settingsToJson, settingsFields, strFields, jsGet, List.lookup]
  · rcases s with ⟨c, p, nm, b⟩
    rcases nm <;> rcases b <;>
      simp [settingsToJson, settingsFields, strFields, jsGet, List.lookup]
  · rcases s with ⟨c, p, nm, b⟩
    rcases nm <;> rcases b <;>
      simp [settingsToJson, settingsFields, strFields, jsGet, List.lookup]
  · rcases s with ⟨c, p, nm, b⟩
    rcases nm <;> rcases b <;>
      simp [settingsToJson, settingsFields, strFields, jsGet, List.lookup]

/-! ### types.ts — the nested-JSON re-parse heuristic (Chat.tsx helpers) -/

/-- Executable substring containment on character lists, modelling
`String.prototype.includes`. -/
def jsIncludes (pat : List Char) : List Char → Bool
  | [] => pat.isPrefixOf []
  | c :: rest => pat.isPrefixOf (c :: rest) || jsIncludes pat rest

/-- `String.prototype.startsWith`, executably on character lists. -/
def jsStartsWith (s pat : String) : Bool :=
  pat.toList.isPrefixOf s.toList

/-- `tryParseDisparoItemsFromText` from types.ts: speculatively re-parse a
text segment as a nested JSON segment array.  The element conversion of the
array loop (strings to text segments, objects kept, others skipped) is the
same as the array branch of `toAnswerItems`. -/
def tryParseDisparoItemsFromText (text : String) : Option (List Json) :=
  if text = "" then none
  else
    let t := jsTrim text
    if t = "" then none
    else if ¬ (jsStartsWith t "\x7b" || jsStartsWith t "[") then none
    else if ¬ (jsIncludes "\"type\"".toList t.toList) then none
    else
      match jsonParse t with
      | none => none
      | some (Json.arr xs) =>
        let out := xs.filterMap toAnswerItemOne
        if out = [] then none else some out
      | some (Json.obj fs) => some [Json.obj fs]
      | some _ => none

/-- What `MessageContent` renders for a text segment's message string. -/
inductive RenderedText where
  | nested (items : List Json) : RenderedText
  | literal (text : String) : RenderedText
  deriving DecidableEq

/-- The text-segment branch of `MessageContent` in types.ts: nested items
when the re-parse heuristic yields a non-empty list, the literal text
otherwise. -/
def renderTextMessage (msg : String) : RenderedText :=
  match tryParseDisparoItemsFromText msg with
  | some items => if items.length ≠ 0 then RenderedText.nested items else RenderedText.literal msg
  | none => RenderedText.literal msg

/-- C7: the nested-JSON re-parse heuristic is total (it is a total function
here; every throwing operation of the source sits behind its catch) and
fail-soft: it yields a non-empty segment list only when the trimmed input
starts with a brace or bracket, contains the `"type"` marker, and parses to
a JSON object or a non-empty array (in which case the nested items are
rendered); a parse failure, or an array whose elements produce no segments,
yields nothing, and whenever it yields nothing the literal text is kept as
the rendered segment. -/
theorem claim_C7 (s : String) :
    (∀ items, tryParseDisparoItemsFromText s = some items →
      items ≠ []
      ∧ (jsStartsWith (jsTrim s) "\x7b" = true ∨ jsStartsWith (jsTrim s) "[" = true)
      ∧ (jsIncludes "\"type\"".toList (jsTrim s).toList = true)
      ∧ (∃ j, jsonParse (jsTrim s) = some j
          ∧ ((∃ fs, j = Json.obj fs) ∨ (∃ xs, j = Json.arr xs ∧ xs ≠ [])))
      ∧ renderTextMessage s = RenderedText.nested items)
    ∧ (jsonParse (jsTrim s) = none → tryParseDisparoItemsFromText s = none)
    ∧ (∀ xs, jsonParse (jsTrim s) = some (Json.arr xs) →
        xs.filterMap toAnswerItemOne = [] → tryParseDisparoItemsFromText s = none)
    ∧ (tryParseDisparoItemsFromText s = none →
        renderTextMessage s = RenderedText.literal s) := by
  refine ⟨?_, ?_, ?_, ?_⟩
  · intro items h
    have htp := h
    simp only [tryParseDisparoItemsFromText] at h
    split_ifs at h with h1 h2 h3 h4
    have hstarts : jsStartsWith (jsTrim s) "\x7b" = true ∨ jsStartsWith (jsTrim s) "[" = true := by
      simpa using h3
    rcases hp : jsonParse (jsTrim s) with _ | j
    · rw [hp] at h; exact Option.noConfusion h
    rw [hp] at h
    cases j with
    | null => exact Option.noConfusion h
    | bool b => exact Option.noConfusion h
    | num r => exact Option.noConfusion h
    | str t => exact Option.noConfusion h
    | arr xs =>
      simp only at h
      by_cases hout : xs.filterMap toAnswerItemOne = []
      · rw [if_pos hout] at h; exact Option.noConfusion h
      rw [if_neg hout] at h
      have hitems : items = xs.filterMap toAnswerItemOne := (Option.some.inj h).symm
      have hne : items ≠ [] := by rw [hitems]; exact hout
      have hxs : xs ≠ [] := by
        intro hx
        subst hx
        simp at hout
      refine ⟨hne, hstarts, h4, ⟨Json.arr xs, rfl, Or.inr ⟨xs, rfl, hxs⟩⟩, ?_⟩
      have hlen : items.length ≠ 0 := fun hl => hne (List.length_eq_zero.mp hl)
      unfold renderTextMessage
      rw [htp]
      simp [hlen]
    | obj fs =>
      simp only at h
      have hitems : items = [Json.obj fs] := (Option.some.inj h).symm
      have hne : items ≠ [] := by rw [hitems]; simp
      refine ⟨hne, hstarts, h4, ⟨Json.obj fs, rfl, Or.inl ⟨fs, rfl⟩⟩, ?_⟩
      have hlen : items.length ≠ 0 := fun hl => hne (List.length_eq_zero.mp hl)
      unfold renderTextMessage
      rw [htp]
      simp [hlen]
  · intro hp
    simp only [tryParseDisparoItemsFromText]
    split_ifs <;> simp [hp]
  · intro xs hp hout
    simp only [tryParseDisparoItemsFromText]
    split_ifs <;> simp [hp, hout]
  · intro hnone
    unfold renderTextMessage
    rw [hnone]

/-- Witness for C7 at a concrete object-shaped input. -/
theorem claim_C7_witness :
    renderTextMessage "\x7b\"type\":1\x7d" = RenderedText.nested [Json.obj [("type", Json.num "1")]] :=
  ((claim_C7 "\x7b\"type\":1\x7d").1 [Json.obj [("type", Json.num "1")]] (by rfl)).2.2.2.2

/-! ### client.ts — request building and sendMessage -/

/-- UTF-8 bytes of a character. -/
def utf8Bytes (c : Char) : List Nat :=
  let v := c.toNat
  if v < 0x80 then [v]
  else if v < 0x800 then [0xC0 + v / 64, 0x80 + v % 64]
  else if v < 0x10000 then [0xE0 + v / 4096, 0x80 + v / 64 % 64, 0x80 + v % 64]
  else [0xF0 + v / 262144, 0x80 + v / 4096 % 64, 0x80 + v / 64 % 64, 0x80 + v % 64]

def hexDigitUpper (n : Nat) : Char :=
  if n < 10 then Char.ofNat (48 + n) else Char.ofNat (55 + n)

/-- Percent-encoding of one byte, with uppercase hex digits. -/
def percentByte (b : Nat) : List Char :=
  ['%', hexDigitUpper (b / 16), hexDigitUpper (b % 16)]

/-- The characters `encodeURIComponent` leaves unescaped. -/
def isUriUnreserved (c : Char) : Bool :=
  ('A' ≤ c && c ≤ 'Z') || ('a' ≤ c && c ≤ 'z') || ('0' ≤ c && c ≤ '9') ||
  c = '-' || c = '_' || c = '.' || c = '!' || c = '~' || c = '*' ||
  c = Char.ofNat 39 || c = '(' || c = ')'

/-- ECMAScript `encodeURIComponent`. -/
def encodeURIComponent (s : String) : String :=
  String.mk ((s.toList.map (fun c =>
    if isUriUnreserved c then [c]
    else ((utf8Bytes c).map percentByte).flatten)).flatten)

/-- `normalizeBaseUrl` from client.ts: trim; empty stays empty; otherwise the
trailing run of slashes is stripped. -/
def normalizeBaseUrl (baseUrl : Option String) : String :=
  let trimmed := jsTrim (baseUrl.getD "")
  if trimmed = "" then ""
  else String.mk ((trimmed.toList.reverse.dropWhile (fun c => c = '/')).reverse)

/-- `buildMessagesUrl` from client.ts. -/
def buildMessagesUrl (settings : ChatSettings) : String :=
  normalizeBaseUrl settings.apiBaseUrl ++ "/v1/messages/simple/"
    ++ encodeURIComponent settings.companyId

/-- The POST body sendMessage builds: `customer_name` only when the trimmed
name is truthy. -/
structure Payload where
  message : String
  customer_phone : String
  customer_name : Option String
  deriving DecidableEq

def sendPayload (settings : ChatSettings) (message : String) : Payload :=
  { message := message
    customer_phone := settings.customerPhone
    customer_name :=
      match settings.customerName with
      | some nm => if jsTrim nm = "" then none else some (jsTrim nm)
      | none => none }

/-- `extractAssistantAnswerText` from client.ts: a string answer is returned
as-is, null/absent yields nothing, anything else is JSON-stringified. -/
def extractAssistantAnswerText (data : Json) : Option String :=
  match jsGetOpt (jsGetOpt (jsGet data "data") "assistant_response") "answer" with
  | none => none
  | some Json.null => none
  | some (Json.str s) => some s
  | some v => some (jsonStringify v)

/-- `resp.ok` of a fetch response. -/
def respOk (status : Nat) : Bool :=
  200 ≤ status && status < 300

/-- The fallback object sendMessage substitutes when the body is not
parseable JSON. -/
def fallbackData (status : Nat) : Json :=
  Json.obj [("success", Json.bool false), ("provider", Json.str "simple"),
    ("error", Json.str ("Resposta inválida (" ++ toString status ++ ")"))]

/-- A rejected sendMessage: either the structured Error built in client.ts
(message plus attached response data, HTTP status, raw body text and
request), or the TypeError thrown by reading `.success`/`.error` off a body
that parsed to JSON null — that exception carries none of those fields. -/
inductive SendReject where
  | appError (message : String) (response : Json) (status : Nat) (rawText : String)
      (url : String) (payload : Payload) : SendReject
  | nullBodyTypeError : SendReject
  deriving DecidableEq

/-- A resolved sendMessage. -/
structure SendOk where
  answerText : String
  answerItems : List Json
  raw : Json
  status : Nat
  ok : Bool
  url : String
  payload : Payload
  rawText : String
  deriving DecidableEq

/-- `sendMessage` from client.ts, as a function of the HTTP status and raw
body text of the fetch response. -/
def sendMessage (settings : ChatSettings) (message : String)
    (status : Nat) (bodyText : String) : Except SendReject SendOk :=
  let url := buildMessagesUrl settings
  let payload := sendPayload settings message
  let data := (jsonParse bodyText).getD (fallbackData status)
  if data = Json.null then Except.error SendReject.nullBodyTypeError
  else if respOk status = false ∨ jsGet data "success" = some (Json.bool false) then
    let msg :=
      match jsGet data "error" with
      | some v => if jsTruthy v then jsToString v else "Erro HTTP " ++ toString status
      | none => "Erro HTTP " ++ toString status
    Except.error (SendReject.appError msg data status bodyText url payload)
  else
    let answerItems := extractDisparoItems data
    let a := itemsToText answerItems
    let answerText :=
      if a ≠ "" then a
      else
        match extractAssistantAnswerText data with
        | some s => s
        | none => ""
    Except.ok
      { answerText := answerText, answerItems := answerItems, raw := data,
        status := status, ok := respOk status, url := url, payload := payload,
        rawText := bodyText }

/-! ### types.ts Chat — messages and the onSend error path -/

inductive ChatRole where
  | user : ChatRole
  | assistant : ChatRole
  | system : ChatRole
  deriving DecidableEq

/-- `ApiTrace` from types.ts (request method is always POST and elided). -/
structure ApiTrace where
  url : String
  payload : Payload
  status : Nat
  ok : Bool
  json : Option Json
  rawText : Option String
  timingMs : Nat
  deriving DecidableEq

/-- `ChatMessage` from types.ts. -/
structure ChatMessage where
  id : String
  role : ChatRole
  text : String
  createdAt : Nat
  answerItems : Option (List Json) := none
  trace : Option ApiTrace := none
  deriving DecidableEq

/-- The message a TypeError rejection surfaces (engine-dependent wording;
only its propagation matters here). -/
def typeErrorMessage : String :=
  "Cannot read properties of null"

/-- The catch branch of `onSend` in Chat.tsx: the synthetic assistant
message and the inline error string produced from a rejected send.  Absent
error fields fall back to `(desconhecido)` / a rebuilt minimal payload /
status 0 / null json and raw text, as in the source. -/
def onSendCatch (settings : ChatSettings) (text : String) (e : SendReject)
    (mid : String) (now : Nat) (timingMs : Nat) : ChatMessage × String :=
  match e with
  | SendReject.appError msg resp status rawText url payload =>
    ({ id := mid, role := ChatRole.assistant,
       text := "Erro ao chamar o backend: " ++ msg, createdAt := now,
       answerItems := none,
       trace := some
         { url := if url = "" then "(desconhecido)" else url
           payload := payload
           status := status, ok := false
           json := some resp, rawText := some rawText, timingMs := timingMs } }, msg)
  | SendReject.nullBodyTypeError =>
    ({ id := mid, role := ChatRole.assistant,
       text := "Erro ao chamar o backend: " ++ typeErrorMessage, createdAt := now,
       answerItems := none,
       trace := some
         { url := "(desconhecido)"
           payload := { message := text, customer_phone := settings.customerPhone,
                        customer_name := none }
           status := 0, ok := false
           json := none, rawText := none, timingMs := timingMs } }, typeErrorMessage)

theorem buildMessagesUrl_ne_empty (settings : ChatSettings) :
    buildMessagesUrl settings ≠ "" := by
  intro h
  have h2 := congrArg String.length h
  have hmid : ("/v1/messages/simple/" : String).length = 20 := rfl
  simp [buildMessagesUrl, String.length_append, hmid] at h2

theorem fallbackData_ne_null (status : Nat) : fallbackData status ≠ Json.null := by
  simp [fallbackData]

theorem fallbackData_success_false (status : Nat) :
    jsGet (fallbackData status) "success" = some (Json.bool false) := by
  simp [fallbackData, jsGet, List.lookup]

theorem sendMessage_error_iff (settings : ChatSettings) (message : String)
    (status : Nat) (bodyText : String) :
    (∃ e, sendMessage settings message status bodyText = Except.error e) ↔
      (respOk status = false ∨ jsonParse bodyText = none
        ∨ jsonParse bodyText = some Json.null
        ∨ (∃ j, jsonParse bodyText = some j
            ∧ jsGet j "success" = some (Json.bool false))) := by
  rcases hp : jsonParse bodyText with _ | j
  · -- unparseable body: the fallback object has success false, so it rejects
    constructor
    · intro _
      exact Or.inr (Or.inl rfl)
    · intro _
      rcases hr : sendMessage settings message status bodyText with e | v
      · exact ⟨e, rfl⟩
      · exfalso
        simp only [sendMessage, hp, Option.getD] at hr
        rw [if_neg (fallbackData_ne_null status),
          if_pos (Or.inr (fallbackData_success_false status))] at hr
        exact Except.noConfusion hr
  · by_cases hnull : j = Json.null
    · subst hnull
      constructor
      · intro _
        exact Or.inr (Or.inr (Or.inl rfl))
      · intro _
        refine ⟨SendReject.nullBodyTypeError, ?_⟩
        simp [sendMessage, hp]
    · by_cases hcond : respOk status = false ∨ jsGet j "success" = some (Json.bool false)
      · constructor
        · intro _
          rcases hcond with hc | hc
          · exact Or.inl hc
          · exact Or.inr (Or.inr (Or.inr ⟨j, rfl, hc⟩))
        · intro _
          rcases hr : sendMessage settings message status bodyText with e | v
          · exact ⟨e, rfl⟩
          · exfalso
            simp only [sendMessage, hp, Option.getD] at hr
            rw [if_neg hnull, if_pos hcond] at hr
            exact Except.noConfusion hr
      · constructor
        · rintro ⟨e, he⟩
          exfalso
          simp only [sendMessage, hp, Option.getD] at he
          rw [if_neg hnull, if_neg hcond] at he
          exact Except.noConfusion he
        · intro hr
          exfalso
          push_neg at hcond
          rcases hr with hc | hc | hc | ⟨j', hj', hc⟩
          · exact hcond.1 hc
          · exact Option.noConfusion hc
          · exact hnull (Option.some.inj hc)
          · exact hcond.2 ((Option.some.inj hj') ▸ hc)

theorem sendMessage_appError_inv (settings : ChatSettings) (message : String)
    (status : Nat) (bodyText : String) (m : String) (r : Json) (st : Nat) (rt : String)
    (u : String) (p : Payload)
    (h : sendMessage settings message status bodyText
      = Except.error (SendReject.appError m r st rt u p)) :
    u = buildMessagesUrl settings ∧ p = sendPayload settings message
      ∧ st = status ∧ rt = bodyText := by
  rcases hp : jsonParse bodyText with _ | j
  · simp only [sendMessage, hp, Option.getD] at h
    rw [if_neg (fallbackData_ne_null status),
      if_pos (Or.inr (fallbackData_success_false status))] at h
    simp only [Except.error.injEq, SendReject.appError.injEq] at h
    exact ⟨h.2.2.2.2.1.symm, h.2.2.2.2.2.symm, h.2.2.1.symm, h.2.2.2.1.symm⟩
  · by_cases hnull : j = Json.null
    · subst hnull
      simp [sendMessage, hp] at h
    · by_cases hcond : respOk status = false ∨ jsGet j "success" = some (Json.bool false)
      · simp only [sendMessage, hp, Option.getD] at h
        rw [if_neg hnull, if_pos hcond] at h
        simp only [Except.error.injEq, SendReject.appError.injEq] at h
        exact ⟨h.2.2.2.2.1.symm, h.2.2.2.2.2.symm, h.2.2.1.symm, h.2.2.2.1.symm⟩
      · simp only [sendMessage, hp, Option.getD] at h
        rw [if_neg hnull, if_neg hcond] at h
        exact Except.noConfusion h

/-- C5, amended: `sendMessage` rejects if and only if the HTTP status is not
2xx, the body is not parseable JSON, the parsed body has
`success === false`, or the body parses to JSON null (in which case reading
`.success`/`.error` off null throws a TypeError).  On every rejection the
send path appends a synthetic assistant message and sets the inline error to
the thrown message; for the structured rejections (the first three kinds)
that message's trace carries the actual request (url, payload) and response
(status, json, rawText), while the null-body TypeError carries placeholder
request/response fields. -/
theorem claim_C5_amended (settings : ChatSettings) (message : String)
    (status : Nat) (bodyText : String) :
    ((∃ e, sendMessage settings message status bodyText = Except.error e) ↔
      (respOk status = false ∨ jsonParse bodyText = none
        ∨ jsonParse bodyText = some Json.null
        ∨ (∃ j, jsonParse bodyText = some j
            ∧ jsGet j "success" = some (Json.bool false))))
    ∧ (∀ (m : String) (r : Json) (st : Nat) (rt : String) (u : String) (p : Payload),
        sendMessage settings message status bodyText
            = Except.error (SendReject.appError m r st rt u p) →
        ∀ (mid : String) (now t : Nat),
          onSendCatch settings message (SendReject.appError m r st rt u p) mid now t
            = ({ id := mid, role := ChatRole.assistant,
                 text := "Erro ao chamar o backend: " ++ m, createdAt := now,
                 answerItems := none,
                 trace := some
                   { url := buildMessagesUrl settings,
                     payload := sendPayload settings message,
                     status := status, ok := false,
                     json := some r, rawText := some bodyText,
                     timingMs := t } }, m))
    ∧ (∀ mid now t,
        (onSendCatch settings message SendReject.nullBodyTypeError mid now t).1.role
            = ChatRole.assistant
          ∧ (onSendCatch settings message SendReject.nullBodyTypeError mid now t).2
            = typeErrorMessage) := by
  refine ⟨sendMessage_error_iff settings message status bodyText, ?_, ?_⟩
  · intro m r st rt u p h mid now t
    obtain ⟨hu, hpay, hst, hrt⟩ :=
      sendMessage_appError_inv settings message status bodyText m r st rt u p h
    subst hu hpay hst hrt
    simp [onSendCatch, buildMessagesUrl_ne_empty settings]
  · intro mid now t
    exact ⟨rfl, rfl⟩

/-- C5 fails as stated: a 2xx response whose body is the valid JSON text
`null` rejects (reading `.success` off the parsed null throws a TypeError),
although the status is 2xx, the body is parseable JSON, and no
`success === false` is present in it. -/
theorem claim_C5_counterexample :
    sendMessage { companyId := "c1", customerPhone := "5511999999999" } "oi" 200 "null"
        = Except.error SendReject.nullBodyTypeError
    ∧ respOk 200 = true
    ∧ jsonParse "null" = some Json.null
    ∧ jsGet Json.null "success" ≠ some (Json.bool false) := by
  refine ⟨rfl, rfl, rfl, ?_⟩
  simp [jsGet]

/-- Witness for the amended C5 at a concrete failing response. -/
theorem claim_C5_amended_witness :
    (∃ e, sendMessage { companyId := "c1", customerPhone := "5511999999999" } "oi" 500 "x"
      = Except.error e) :=
  (claim_C5_amended { companyId := "c1", customerPhone := "5511999999999" } "oi" 500 "x").1.mpr
    (Or.inl (by rfl))

theorem toList_string_mk (l : List Char) : (String.mk l).toList = l := rfl

theorem head_dropWhile_ne_slash (l : List Char) :
    ∀ c, (l.dropWhile (fun x => x = '/')).head? = some c → c ≠ '/' := by
  induction l with
  | nil => simp
  | cons a t ih =>
    intro c h
    rw [List.dropWhile_cons] at h
    by_cases ha : a = '/'
    · rw [if_pos (by simp [ha])] at h
      exact ih c h
    · rw [if_neg (by simp [ha])] at h
      rw [List.head?_cons] at h
      injection h with h
      exact h ▸ ha

theorem normalizeBaseUrl_no_trailing_slash (b : Option String) :
    (normalizeBaseUrl b).toList.getLast? ≠ some '/' := by
  unfold normalizeBaseUrl
  by_cases h : jsTrim (b.getD "") = ""
  · simp [h]
  · simp only [h, if_false]
    rw [toList_string_mk, List.getLast?_reverse]
    intro hc
    exact head_dropWhile_ne_slash _ '/' hc rfl

/-- C8: the request URL is the normalized base (trimmed, with no trailing
slash) followed by `/v1/messages/simple/` and the URI-encoded company id,
and the POST body is exactly `\x7b message, customer_phone \x7d` when the
customer name is absent or whitespace-only, and exactly
`\x7b message, customer_phone, customer_name \x7d` with the trimmed name
otherwise. -/
theorem claim_C8 (settings : ChatSettings) (message : String) :
    buildMessagesUrl settings
        = normalizeBaseUrl settings.apiBaseUrl ++ "/v1/messages/simple/"
          ++ encodeURIComponent settings.companyId
    ∧ (normalizeBaseUrl settings.apiBaseUrl).toList.getLast? ≠ some '/'
    ∧ (sendPayload settings message).message = message
    ∧ (sendPayload settings message).customer_phone = settings.customerPhone
    ∧ ((settings.customerName = none
          ∨ ∃ nm, settings.customerName = some nm ∧ jsTrim nm = "") →
        sendPayload settings message
          = { message := message, customer_phone := settings.customerPhone,
              customer_name := none })
    ∧ (∀ nm, settings.customerName = some nm → jsTrim nm ≠ "" →
        sendPayload settings message
          = { message := message, customer_phone := settings.customerPhone,
              customer_name := some (jsTrim nm) }) := by
  refine ⟨rfl, normalizeBaseUrl_no_trailing_slash settings.apiBaseUrl, rfl, rfl, ?_, ?_⟩
  · rintro (hn | ⟨nm, hnm, ht⟩)
    · simp [sendPayload, hn]
    · simp [sendPayload, hnm, ht]
  · intro nm hnm ht
    simp [sendPayload, hnm, ht]

/-- Witness for C8 at concrete settings with a padded name and a base URL
carrying whitespace and trailing slashes. -/
theorem claim_C8_witness :
    sendPayload
        { companyId := "a b", customerPhone := "123",
          customerName := some " John ", apiBaseUrl := some " https://h// " } "hi"
      = { message := "hi", customer_phone := "123", customer_name := some "John" } := by
  have h := (claim_C8
    { companyId := "a b", customerPhone := "123",
      customerName := some " John ", apiBaseUrl := some " https://h// " } "hi").2.2.2.2.2
    " John " rfl (by decide)
  rw [h]
  have : jsTrim " John " = "John" := by decide
  rw [this]

/-- `normalizeDigits` from Onboarding.tsx: strip every non-digit
(`value.replace(/[^\d]/g, '')`). -/
def normalizeDigits (value : String) : String :=
  String.mk (value.toList.filter (fun c => c.isDigit))

/-- `canStart` from Onboarding.tsx. -/
def canStart (companyId customerPhone : String) : Bool :=
  decide (0 < (jsTrim companyId).length)
    && decide (8 ≤ (normalizeDigits customerPhone).length)

/-- The settings object the start button's onClick hands to `onStart`. -/
def startSettings (companyId customerPhone customerName apiBaseUrl : String) :
    ChatSettings :=
  { companyId := jsTrim companyId
    customerPhone := normalizeDigits customerPhone
    customerName :=
      if jsTrim customerName = "" then none else some (jsTrim customerName)
    apiBaseUrl := some apiBaseUrl }

theorem head_dropWhile_not (p : Char → Bool) (l : List Char) :
    ∀ c, (l.dropWhile p).head? = some c → p c = false := by
  induction l with
  | nil => simp
  | cons a t ih =>
    intro c h
    rw [List.dropWhile_cons] at h
    by_cases ha : p a = true
    · rw [if_pos ha] at h
      exact ih c h
    · rw [if_neg ha] at h
      rw [List.head?_cons] at h
      injection h with h
      subst h
      exact Bool.not_eq_true _ ▸ ha

theorem jsTrim_getLast_not_ws (s : String) (c : Char)
    (h : (jsTrim s).toList.getLast? = some c) : isJsWhitespace c = false := by
  rw [jsTrim, toList_string_mk, List.getLast?_reverse] at h
  exact head_dropWhile_not isJsWhitespace _ c h

theorem jsTrim_head_not_ws (s : String) (c : Char)
    (h : (jsTrim s).toList.head? = some c) : isJsWhitespace c = false := by
  rw [jsTrim, toList_string_mk, List.head?_reverse] at h
  obtain ⟨t, ht⟩ :=
    List.dropWhile_suffix (l := (s.toList.dropWhile isJsWhitespace).reverse)
      (p := isJsWhitespace)
  have hne :
      (s.toList.dropWhile isJsWhitespace).reverse.dropWhile isJsWhitespace ≠ [] := by
    intro hnil
    rw [hnil] at h
    exact Option.noConfusion h
  have hm : (s.toList.dropWhile isJsWhitespace).reverse.getLast? = some c := by
    rw [← ht, List.getLast?_append_of_ne_nil _ hne]
    exact h
  rw [List.getLast?_reverse] at hm
  exact head_dropWhile_not isJsWhitespace _ c hm

/-- C10: when the start button is enabled (`canStart`), the settings object
produced by its onClick has a non-empty company id with no leading or
trailing whitespace, a customer phone made only of decimal digits with at
least 8 of them, and a customer name that is either absent or a non-empty
string with no leading or trailing whitespace. -/
theorem claim_C10 (companyId customerPhone customerName apiBaseUrl : String)
    (h : canStart companyId customerPhone = true) :
    (startSettings companyId customerPhone customerName apiBaseUrl).companyId ≠ ""
    ∧ (∀ c, (startSettings companyId customerPhone customerName
        apiBaseUrl).companyId.toList.head? = some c → isJsWhitespace c = false)
    ∧ (∀ c, (startSettings companyId customerPhone customerName
        apiBaseUrl).companyId.toList.getLast? = some c → isJsWhitespace c = false)
    ∧ (∀ c ∈ (startSettings companyId customerPhone customerName
        apiBaseUrl).customerPhone.toList, c.isDigit = true)
    ∧ 8 ≤ (startSettings companyId customerPhone customerName
        apiBaseUrl).customerPhone.length
    ∧ (∀ t, (startSettings companyId customerPhone customerName
        apiBaseUrl).customerName = some t →
        t ≠ "" ∧ (∀ c, t.toList.head? = some c → isJsWhitespace c = false)
          ∧ (∀ c, t.toList.getLast? = some c → isJsWhitespace c = false)) := by
  rw [canStart, Bool.and_eq_true, decide_eq_true_eq, decide_eq_true_eq] at h
  refine ⟨?_, ?_, ?_, ?_, ?_, ?_⟩
  · intro he
    have : (jsTrim companyId).length = 0 := by
      have he2 : (startSettings companyId customerPhone customerName
          apiBaseUrl).companyId = jsTrim companyId := rfl
      rw [← he2, he]
      rfl
    omega
  · intro c hc
    exact jsTrim_head_not_ws companyId c hc
  · intro c hc
    exact jsTrim_getLast_not_ws companyId c hc
  · intro c hc
    have hc2 : c ∈ customerPhone.toList.filter (fun c => c.isDigit) := hc
    exact (List.mem_filter.mp hc2).2
  · exact h.2
  · intro t ht
    by_cases hn : jsTrim customerName = ""
    · simp [startSettings, hn] at ht
    · simp only [startSettings, if_neg hn, Option.some.injEq] at ht
      subst ht
      exact ⟨hn, fun c hc => jsTrim_head_not_ws customerName c hc,
        fun c hc => jsTrim_getLast_not_ws customerName c hc⟩

/-- Witness for C10 at a formatted phone number and a padded company id. -/
theorem claim_C10_witness :
    canStart " Acme " "(11) 91234-5678" = true
    ∧ 8 ≤ (startSettings " Acme " "(11) 91234-5678" "" "").customerPhone.length :=
  ⟨by decide, (claim_C10 " Acme " "(11) 91234-5678" "" "" (by decide)).2.2.2.2.1⟩

/-- `getString` from Chat.tsx: absent/null values yield undefined, strings
pass through, anything else goes through `String(v)`. -/
def getString (data : Json) (key : String) : Option String :=
  match jsGet data key with
  | none => none
  | some Json.null => none
  | some (Json.str s) => some s
  | some v => some (jsToString v)

/-- JS `a || b` on `string | undefined` values (the empty string is falsy). -/
def jsOrStr (a b : Option String) : Option String :=
  match a with
  | some s => if s = "" then b else some s
  | none => b

/-- Truthiness of a `string | undefined` value. -/
def truthyStr (o : Option String) : Bool :=
  match o with
  | some s => decide (s ≠ "")
  | none => false

/-- JS `x || fallback` on an optionally-present JSON value. -/
def jsOrJson (a : Option Json) (b : Json) : Json :=
  match a with
  | some v => if jsTruthy v then v else b
  | none => b

def isObjectLike : Json → Bool
  | Json.obj _ => true
  | Json.arr _ => true
  | _ => false

/-- `ConversationContext` from types.ts. -/
structure ConversationContext where
  assistantId : Option String
  customerId : Option String
  companyId : Option String
  threadId : Option String
  platform : Option String
  assistantExternalId : Option String
  threadAssistantExternalId : Option String
  deriving DecidableEq

/-- `extractConversationContextFromResponseJson` from Chat.tsx.  Note that
the `hasAny` guard tests every context field except `threadId`. -/
def extractConversationContextFromResponseJson (json : Json) :
    Option ConversationContext :=
  if !(jsTruthy json && isObjectLike json) then none
  else
    match jsGet json "data" with
    | none => none
    | some data =>
      if !(jsTruthy data && isObjectLike data) then none
      else
        let ctx : ConversationContext :=
          { assistantId := jsOrStr (getString data "assistant_id")
              (getString data "thread_current_assistant_id")
            customerId := getString data "customer_id"
            companyId := getString data "company_id"
            threadId := getString data "thread_id"
            platform :=
              if jsToLower ((getString data "platform").getD "") = "" then none
              else some (jsToLower ((getString data "platform").getD ""))
            assistantExternalId := getString data "external_id"
            threadAssistantExternalId :=
              getString data "thread_assistant_external_id" }
        if truthyStr ctx.assistantId || truthyStr ctx.customerId
            || truthyStr ctx.companyId || truthyStr ctx.platform
            || truthyStr ctx.assistantExternalId
            || truthyStr ctx.threadAssistantExternalId
        then some ctx else none

/-- The special-command check at the top of `onSend`'s success path
(`#close`/`#delete-user` commands, `close_threads`/`delete_user` actions). -/
def specialCommandTriggered (raw : Json) : Bool :=
  let cmd := jsToLower (jsTrim (jsToString
    (jsOrJson (jsGetOpt (jsGet raw "data") "command") (Json.str ""))))
  let act := jsToLower (jsTrim (jsToString
    (jsOrJson (jsGetOpt (jsGet raw "data") "action") (Json.str ""))))
  cmd = "#close" || cmd = "#delete-user" || act = "close_threads" || act = "delete_user"

/-- `(ctx?.threadId || '').trim() || null` on the extracted context. -/
def nextThreadIdOf (raw : Json) : Option String :=
  match extractConversationContextFromResponseJson raw with
  | some ctx =>
    match ctx.threadId with
    | some t => if jsTrim t = "" then none else some (jsTrim t)
    | none => none
  | none => none

def closeBannerMsg (bid : String) (now : Nat) : ChatMessage :=
  { id := bid, role := ChatRole.system,
    text := "Conversa encerrada. Você já pode iniciar uma nova conversa.",
    createdAt := now }

def threadBannerMsg (nt bid : String) (now : Nat) : ChatMessage :=
  { id := bid, role := ChatRole.system, text := "Thread: " ++ nt, createdAt := now }

/-- The message-list update performed by the success path of `onSend`.
`prev` is the list before the send; the just-sent user message was already
appended to the state before the fetch, so the fall-through branch appends
to `prev ++ [userMsg]`. -/
def onSendSuccessMessages (prev : List ChatMessage) (prevThreadId : Option String)
    (raw : Json) (userMsg assistantMsg : ChatMessage) (openMsgs : List ChatMessage)
    (bid : String) (now : Nat) : List ChatMessage :=
  if specialCommandTriggered raw then
    closeBannerMsg bid now :: userMsg :: (openMsgs ++ [assistantMsg])
  else
    match nextThreadIdOf raw with
    | some nt =>
      if truthyStr prevThreadId && decide (prevThreadId ≠ some nt) then
        threadBannerMsg nt bid now :: userMsg :: (openMsgs ++ [assistantMsg])
      else prev ++ userMsg :: (openMsgs ++ [assistantMsg])
    | none => prev ++ userMsg :: (openMsgs ++ [assistantMsg])

/-- C4 fails as stated: a response whose `data` carries only a changed
`thread_id` (and none of the other context fields) makes `hasAny` false, so
`extractConversationContextFromResponseJson` returns null, the thread-switch
branch is skipped, and the prior messages are all retained with no new
session banner. -/
theorem claim_C4_counterexample :
    onSendSuccessMessages
        [{ id := "m0", role := ChatRole.system, text := "old", createdAt := 0 }]
        (some "T1")
        (Json.obj [("data", Json.obj [("thread_id", Json.str "T2")])])
        { id := "u1", role := ChatRole.user, text := "oi", createdAt := 1 }
        { id := "a1", role := ChatRole.assistant, text := "resp", createdAt := 2 }
        [] "b1" 3
      = [{ id := "m0", role := ChatRole.system, text := "old", createdAt := 0 },
         { id := "u1", role := ChatRole.user, text := "oi", createdAt := 1 },
         { id := "a1", role := ChatRole.assistant, text := "resp", createdAt := 2 }]
    ∧ getString (Json.obj [("thread_id", Json.str "T2")]) "thread_id" = some "T2"
    ∧ ("T1" : String) ≠ "T2" := by
  refine ⟨?_, rfl, by decide⟩
  rfl

/-- C4, amended: when the response additionally carries at least one other
context field (so `hasAny` holds and the context is extracted), no special
command is signalled, a thread id was tracked before the send, and the
response's thread id differs from it, the resulting list is exactly the new
session banner, the just-sent user message, any replayed open messages and
the assistant reply; the banner is a system message reading `Thread: <id>`;
and no message of the prior list survives provided its id differs from the
ids of those four groups. -/
theorem claim_C4_amended (prev : List ChatMessage) (prevThreadId : String)
    (raw : Json) (userMsg assistantMsg : ChatMessage) (openMsgs : List ChatMessage)
    (bid : String) (now : Nat) (nt : String)
    (hcmd : specialCommandTriggered raw = false)
    (hnext : nextThreadIdOf raw = some nt)
    (hprev : prevThreadId ≠ "")
    (hne : prevThreadId ≠ nt) :
    onSendSuccessMessages prev (some prevThreadId) raw userMsg assistantMsg
        openMsgs bid now
      = threadBannerMsg nt bid now :: userMsg :: (openMsgs ++ [assistantMsg])
    ∧ (threadBannerMsg nt bid now).role = ChatRole.system
    ∧ (threadBannerMsg nt bid now).text = "Thread: " ++ nt
    ∧ ∀ m ∈ prev, m.id ≠ bid → m.id ≠ userMsg.id → m.id ≠ assistantMsg.id →
        (∀ o ∈ openMsgs, m.id ≠ o.id) →
        m ∉ onSendSuccessMessages prev (some prevThreadId) raw userMsg
          assistantMsg openMsgs bid now := by
  have hmain : onSendSuccessMessages prev (some prevThreadId) raw userMsg
      assistantMsg openMsgs bid now
      = threadBannerMsg nt bid now :: userMsg :: (openMsgs ++ [assistantMsg]) := by
    rw [onSendSuccessMessages, hcmd]
    simp only [Bool.false_eq_true, if_false]
    rw [hnext]
    have hcond : (truthyStr (some prevThreadId)
        && decide ((some prevThreadId : Option String) ≠ some nt)) = true := by
      simp [truthyStr, hprev, hne]
    simp only [hcond, if_true]
  refine ⟨hmain, rfl, rfl, ?_⟩
  intro m _ hb hu ha ho hmem
  rw [hmain] at hmem
  simp only [List.mem_cons, List.mem_append, List.mem_singleton] at hmem
  rcases hmem with h | h | h | h | h
  · exact hb (congrArg ChatMessage.id h)
  · exact hu (congrArg ChatMessage.id h)
  · exact ho m h rfl
  · exact ha (congrArg ChatMessage.id h)
  · simp at h

/-- Witness for the amended C4: a response carrying `thread_id` T2 and a
`customer_id` while T1 was tracked replaces the list with the banner, the
user message and the assistant reply. -/
theorem claim_C4_amended_witness :
    onSendSuccessMessages
        [{ id := "m0", role := ChatRole.system, text := "old", createdAt := 0 }]
        (some "T1")
        (Json.obj [("data", Json.obj [("thread_id", Json.str "T2"),
          ("customer_id", Json.str "c9")])])
        { id := "u1", role := ChatRole.user, text := "oi", createdAt := 1 }
        { id := "a1", role := ChatRole.assistant, text := "resp", createdAt := 2 }
        [] "b1" 9
      = threadBannerMsg "T2" "b1" 9
          :: { id := "u1", role := ChatRole.user, text := "oi", createdAt := 1 }
          :: ([] ++
            [{ id := "a1", role := ChatRole.assistant, text := "resp",
               createdAt := 2 }]) :=
  (claim_C4_amended
    [{ id := "m0", role := ChatRole.system, text := "old", createdAt := 0 }]
    "T1"
    (Json.obj [("data", Json.obj [("thread_id", Json.str "T2"),
      ("customer_id", Json.str "c9")])])
    { id := "u1", role := ChatRole.user, text := "oi", createdAt := 1 }
    { id := "a1", role := ChatRole.assistant, text := "resp", createdAt := 2 }
    [] "b1" 9 "T2" (by decide) (by decide) (by decide) (by decide)).1

/-! ### JsonTree.tsx — array labels and key ordering -/

/-- Three-way lexicographic comparison of equal-priority key lists. -/
def listCompare : List Nat → List Nat → Int
  | [], [] => 0
  | [], _ :: _ => -1
  | _ :: _, [] => 1
  | x :: xs, y :: ys => if x < y then -1 else if y < x then 1 else listCompare xs ys

theorem listCompare_eq_zero : ∀ a b : List Nat, listCompare a b = 0 ↔ a = b := by
  intro a
  induction a with
  | nil => intro b; cases b <;> simp [listCompare]
  | cons x xs ih =>
    intro b
    cases b with
    | nil => simp [listCompare]
    | cons y ys =>
      simp only [listCompare]
      by_cases h1 : x < y
      · rw [if_pos h1]
        constructor
        · intro h; exact absurd h (by decide)
        · intro h; injection h with hx _; omega
      · by_cases h2 : y < x
        · rw [if_neg h1, if_pos h2]
          constructor
          · intro h; exact absurd h (by decide)
          · intro h; injection h with hx _; omega
        · have hxy : x = y := by omega
          subst hxy
          rw [if_neg h1, if_neg h2, ih ys]
          simp

theorem listCompare_neg : ∀ a b : List Nat, listCompare a b = -listCompare b a := by
  intro a
  induction a with
  | nil => intro b; cases b <;> simp [listCompare]
  | cons x xs ih =>
    intro b
    cases b with
    | nil => simp [listCompare]
    | cons y ys =>
      simp only [listCompare]
      rcases Nat.lt_trichotomy x y with h | h | h
      · rw [if_pos h, if_neg (show ¬ y < x by omega), if_pos h]
      · subst h
        simp only [if_neg (show ¬ x < x by omega)]
        exact ih ys
      · rw [if_neg (show ¬ x < y by omega), if_pos h, if_pos h]
        decide

theorem listCompare_lt_trans : ∀ a b c : List Nat,
    listCompare a b < 0 → listCompare b c < 0 → listCompare a c < 0 := by
  intro a
  induction a with
  | nil =>
    intro b c h1 h2
    cases c with
    | nil => cases b <;> simp [listCompare] at h2
    | cons z zs => simp [listCompare]
  | cons x xs ih =>
    intro b c h1 h2
    cases b with
    | nil => simp [listCompare] at h1
    | cons y ys =>
      cases c with
      | nil => simp [listCompare] at h2
      | cons z zs =>
        simp only [listCompare] at h1 h2 ⊢
        by_cases hxy : x < y
        · by_cases hyz : y < z
          · rw [if_pos (show x < z by omega)]; decide
          · by_cases hzy : z < y
            · rw [if_neg hyz, if_pos hzy] at h2
              exact absurd h2 (by decide)
            · rw [if_pos (show x < z by omega)]; decide
        · by_cases hyx : y < x
          · rw [if_neg hxy, if_pos hyx] at h1
            exact absurd h1 (by decide)
          · by_cases hyz : y < z
            · rw [if_pos (show x < z by omega)]; decide
            · by_cases hzy : z < y
              · rw [if_neg hyz, if_pos hzy] at h2
                exact absurd h2 (by decide)
              · rw [if_neg hxy, if_neg hyx] at h1
                rw [if_neg hyz, if_neg hzy] at h2
                rw [if_neg (show ¬ x < z by omega), if_neg (show ¬ z < x by omega)]
                exact ih ys zs h1 h2

theorem listCompare_le_trans (a b c : List Nat) (h1 : listCompare a b ≤ 0)
    (h2 : listCompare b c ≤ 0) : listCompare a c ≤ 0 := by
  by_cases h1e : listCompare a b = 0
  · rw [(listCompare_eq_zero _ _).mp h1e]
    exact h2
  · by_cases h2e : listCompare b c = 0
    · rw [← (listCompare_eq_zero _ _).mp h2e]
      exact h1
    · have := listCompare_lt_trans a b c (by omega) (by omega)
      omega

/-- Primary collation weight: case folded, so `a < B` as in the root
collation used by `localeCompare` in the default locale (ASCII fragment). -/
def primaryKey (s : String) : List Nat :=
  s.toList.map (fun c => (Char.toLower c).toNat)

/-- Tertiary collation weight: lowercase sorts before uppercase on a
primary tie, as in the root collation. -/
def tertiaryKey (s : String) : List Nat :=
  s.toList.map (fun c => if c.isUpper then 1 else 0)

/-- `a.localeCompare(b)` of JsonTree.tsx, modelled for the ASCII
letter/digit fragment of the default-locale (root) collation: compare case
folded strings first, break ties by case with lowercase first. -/
def jsLocaleCompare (a b : String) : Int :=
  if listCompare (primaryKey a) (primaryKey b) = 0
  then listCompare (tertiaryKey a) (tertiaryKey b)
  else listCompare (primaryKey a) (primaryKey b)

theorem jsLocaleCompare_neg (a b : String) :
    jsLocaleCompare b a = -jsLocaleCompare a b := by
  unfold jsLocaleCompare
  rw [listCompare_neg (primaryKey b) (primaryKey a),
    listCompare_neg (tertiaryKey b) (tertiaryKey a)]
  by_cases h : listCompare (primaryKey a) (primaryKey b) = 0
  · rw [h]
    simp
  · rw [if_neg (by omega), if_neg h]

/-- The sort order the comparator induces (a stable sort puts `a` no later
than `b` exactly when the comparator is nonpositive). -/
abbrev localeLe (a b : String) : Prop := jsLocaleCompare a b ≤ 0

instance : IsTotal String localeLe :=
  ⟨by
    intro a b
    by_cases h : jsLocaleCompare a b ≤ 0
    · exact Or.inl h
    · right
      show jsLocaleCompare b a ≤ 0
      rw [jsLocaleCompare_neg a b]
      omega⟩

instance : IsTrans String localeLe :=
  ⟨by
    intro a b c h1 h2
    show jsLocaleCompare a c ≤ 0
    unfold localeLe jsLocaleCompare at *
    by_cases hab : listCompare (primaryKey a) (primaryKey b) = 0
    · have hpab : primaryKey a = primaryKey b := (listCompare_eq_zero _ _).mp hab
      rw [if_pos hab] at h1
      by_cases hbc : listCompare (primaryKey b) (primaryKey c) = 0
      · have hpbc : primaryKey b = primaryKey c := (listCompare_eq_zero _ _).mp hbc
        rw [if_pos hbc] at h2
        rw [if_pos ((listCompare_eq_zero _ _).mpr (hpab.trans hpbc))]
        exact listCompare_le_trans _ _ _ h1 h2
      · rw [if_neg hbc] at h2
        rw [hpab, if_neg hbc]
        exact h2
    · rw [if_neg hab] at h1
      by_cases hbc : listCompare (primaryKey b) (primaryKey c) = 0
      · have hpbc : primaryKey b = primaryKey c := (listCompare_eq_zero _ _).mp hbc
        rw [← hpbc, if_neg hab]
        exact h1
      · rw [if_neg hbc] at h2
        have hlt := listCompare_lt_trans (primaryKey a) (primaryKey b) (primaryKey c)
          (by omega) (by omega)
        rw [if_neg (by omega)]
        omega⟩

/-- `sortKeys` from JsonTree.tsx: a stable sort by `localeCompare` (any
stable sort agrees with insertion sort for a consistent comparator). -/
def sortKeys (keys : List String) : List String :=
  List.insertionSort localeLe keys

/-- Lexicographic (code-unit) key order, as the spec's words have it. -/
abbrev specLexLe (a b : String) : Prop :=
  listCompare (a.toList.map Char.toNat) (b.toList.map Char.toNat) ≤ 0

/-- Key sorting as the spec's words describe it: plain lexicographic. -/
def specLexSortKeys (keys : List String) : List String :=
  List.insertionSort specLexLe keys

/-- The `string | undefined` result of the non-blank string checks in
`getNamedArrayLabel` (`typeof v === 'string' && v.trim()`), trimmed. -/
def nonBlankString : Option Json → Option String
  | some (Json.str s) => if jsTrim s = "" then none else some (jsTrim s)
  | _ => none

/-- `getNamedArrayLabel` from JsonTree.tsx. -/
def getNamedArrayLabel (item : Json) (index : Nat) : String :=
  match item with
  | Json.obj _ =>
    match nonBlankString (jsGet item "name") with
    | some nm => "[" ++ nm ++ "]"
    | none =>
      match nonBlankString (jsGet item "id") with
      | some i => "[" ++ i ++ "]"
      | none => "[" ++ toString index ++ "]"
  | _ => "[" ++ toString index ++ "]"

/-- The `(key, value, label)` entry list of an expanded `Node`: arrays label
entries by `getNamedArrayLabel`, objects sort their keys and label entries
by the key itself. -/
def nodeEntries : Json → List (String × Json × String)
  | Json.arr items =>
    items.enum.map (fun p => (toString p.1, p.2, getNamedArrayLabel p.2 p.1))
  | Json.obj fields =>
    (sortKeys (fields.map Prod.fst)).map (fun k =>
      (k, (jsGet (Json.obj fields) k).getD Json.null, k))
  | _ => []

/-- C9 fails as stated: keys are sorted with `localeCompare`, not
lexicographically.  For the keys `B` and `a` the locale-aware comparator
orders `a` before `B`, while lexicographic (code-unit) order puts `B`
first, so the displayed order differs from the spec's words. -/
theorem claim_C9_counterexample :
    nodeEntries (Json.obj [("B", Json.num "1"), ("a", Json.num "2")])
      = [("a", Json.num "2", "a"), ("B", Json.num "1", "B")]
    ∧ sortKeys ["B", "a"] = ["a", "B"]
    ∧ specLexSortKeys ["B", "a"] = ["B", "a"]
    ∧ sortKeys ["B", "a"] ≠ specLexSortKeys ["B", "a"] := by
  refine ⟨by rfl, by rfl, by rfl, by decide⟩

/-- C9, amended: object keys are displayed in ascending order of the
locale-aware comparator (`localeCompare`), not plain lexicographic order —
the displayed key list is a permutation of the object's keys sorted by the
collation order, and each object entry is labelled by its key; array
entries are labelled `[name.trim()]` when the entry's `name` is a non-blank
string, else `[id.trim()]` when its `id` is a non-blank string, else
`[index]`. -/
theorem claim_C9_amended :
    (∀ fields : List (String × Json),
        List.Sorted localeLe (sortKeys (fields.map Prod.fst))
        ∧ List.Perm (sortKeys (fields.map Prod.fst)) (fields.map Prod.fst)
        ∧ (nodeEntries (Json.obj fields)).map (fun e => e.1)
            = sortKeys (fields.map Prod.fst)
        ∧ ∀ e ∈ nodeEntries (Json.obj fields), e.2.2 = e.1)
    ∧ (∀ items : List Json,
        (nodeEntries (Json.arr items)).map (fun e => e.2.2)
          = items.enum.map (fun p => getNamedArrayLabel p.2 p.1))
    ∧ (∀ fields index nm, jsGet (Json.obj fields) "name" = some (Json.str nm) →
        jsTrim nm ≠ "" →
        getNamedArrayLabel (Json.obj fields) index = "[" ++ jsTrim nm ++ "]")
    ∧ (∀ fields index i, nonBlankString (jsGet (Json.obj fields) "name") = none →
        jsGet (Json.obj fields) "id" = some (Json.str i) → jsTrim i ≠ "" →
        getNamedArrayLabel (Json.obj fields) index = "[" ++ jsTrim i ++ "]")
    ∧ (∀ fields index, nonBlankString (jsGet (Json.obj fields) "name") = none →
        nonBlankString (jsGet (Json.obj fields) "id") = none →
        getNamedArrayLabel (Json.obj fields) index = "[" ++ toString index ++ "]")
    ∧ (∀ item index, (∀ fields, item ≠ Json.obj fields) →
        getNamedArrayLabel item index = "[" ++ toString index ++ "]") := by
  refine ⟨?_, ?_, ?_, ?_, ?_, ?_⟩
  · intro fields
    refine ⟨List.sorted_insertionSort localeLe _, List.perm_insertionSort localeLe _,
      ?_, ?_⟩
    · show ((sortKeys (fields.map Prod.fst)).map
          (fun k => (k, (jsGet (Json.obj fields) k).getD Json.null, k))).map
          (fun e => e.1) = sortKeys (fields.map Prod.fst)
      rw [List.map_map]
      exact List.map_id _
    · intro e he
      simp only [nodeEntries, List.mem_map] at he
      obtain ⟨k, _, hk⟩ := he
      rw [← hk]
  · intro items
    simp [nodeEntries, List.map_map, Function.comp]
  · intro fields index nm hname hnm
    simp only [getNamedArrayLabel, nonBlankString, hname, if_neg hnm]
  · intro fields index i hnm hid hi
    simp only [getNamedArrayLabel, hnm]
    simp only [hid, nonBlankString, if_neg hi]
  · intro fields index hnm hid
    simp only [getNamedArrayLabel, hnm, hid]
  · intro item index hno
    match item with
    | Json.obj fields => exact absurd rfl (hno fields)
    | Json.null | Json.bool _ | Json.num _ | Json.str _ | Json.arr _ => rfl

/-- Witness for the amended C9: keys `B`,`a` come out locale sorted, and a
padded `name` labels an array entry. -/
theorem claim_C9_amended_witness :
    List.Sorted localeLe (sortKeys (([("B", Json.num "1"), ("a", Json.num "2")]
        : List (String × Json)).map Prod.fst))
    ∧ getNamedArrayLabel (Json.obj [("name", Json.str " Foo ")]) 3 = "[Foo]" := by
  refine ⟨(claim_C9_amended.1 [("B", Json.num "1"), ("a", Json.num "2")]).1, ?_⟩
  have h := claim_C9_amended.2.2.1 [("name", Json.str " Foo ")] 3 " Foo " rfl
    (by decide)
  rw [h]
  rfl

/-! ### Chat.tsx — cta links and the URL/`URLSearchParams` model

The model covers absolute `http`/`https` URLs whose components are already
made of URL code points (the fragment the cta links exercise); outside it
`parseUrl` returns `none`. -/

/-- Byte sequence of a string's UTF-8 encoding. -/
def utf8Str (s : String) : List Nat :=
  (s.toList.map utf8Bytes).flatten

theorem char_toNat_lt (c : Char) : c.toNat < 1114112 := by
  have h := c.valid
  show c.val.toNat < 1114112
  rcases h with h | h <;> omega

theorem char_toNat_ofNat (n : Nat) (h : n < 55296) : (Char.ofNat n).toNat = n := by
  have hv : n.isValidChar := Or.inl h
  rw [Char.ofNat, dif_pos hv]
  rfl

theorem utf8Bytes_lt_256 (c : Char) : ∀ b ∈ utf8Bytes c, b < 256 := by
  have h := char_toNat_lt c
  intro b hb
  simp only [utf8Bytes] at hb
  split_ifs at hb with h1 h2 h3
  · simp at hb; omega
  · simp at hb; rcases hb with hb | hb <;> omega
  · simp at hb; rcases hb with hb | hb | hb <;> omega
  · simp at hb; rcases hb with hb | hb | hb | hb <;> omega

def isHostChar (c : Char) : Bool :=
  (48 ≤ c.toNat && c.toNat ≤ 57) || (65 ≤ c.toNat && c.toNat ≤ 90) ||
  (97 ≤ c.toNat && c.toNat ≤ 122) || c.toNat == 45 || c.toNat == 46 || c.toNat == 58

/-- URL code points that serialize unchanged in a path. -/
def isPathCharU (c : Char) : Bool :=
  (48 ≤ c.toNat && c.toNat ≤ 57) || (65 ≤ c.toNat && c.toNat ≤ 90) ||
  (97 ≤ c.toNat && c.toNat ≤ 122) ||
  c.toNat == 47 || c.toNat == 45 || c.toNat == 46 || c.toNat == 95 ||
  c.toNat == 126 || c.toNat == 33 || c.toNat == 36 || c.toNat == 38 ||
  c.toNat == 39 || c.toNat == 40 || c.toNat == 41 || c.toNat == 42 ||
  c.toNat == 43 || c.toNat == 44 || c.toNat == 59 || c.toNat == 61 ||
  c.toNat == 58 || c.toNat == 64 || c.toNat == 37

def isQueryCharU (c : Char) : Bool :=
  isPathCharU c || c.toNat == 63

/-- The components of a parsed absolute URL (`new URL(...)`). -/
structure UrlRec where
  scheme : List Char
  host : List Char
  path : List Char
  query : Option (List Char)
  fragment : Option (List Char)
  deriving DecidableEq

/-- `new URL(href)` on the modelled fragment: absolute `http`/`https` URLs
with a nonempty host and components made of URL code points.  Scheme and
host are lowercased as the URL parser does. -/
def parseUrl (href : String) : Option UrlRec :=
  let cs := href.toList
  let sch := cs.takeWhile (fun c => c ≠ ':')
  if ¬ (jsToLower (String.mk sch) = "http" ∨ jsToLower (String.mk sch) = "https")
  then none
  else if (cs.drop sch.length).take 3 ≠ [':', '/', '/'] then none
  else
    let rest := cs.drop (sch.length + 3)
    let host := rest.takeWhile (fun c => c ≠ '/' ∧ c ≠ '?' ∧ c ≠ '#')
    if host = [] ∨ ¬ host.all isHostChar then none
    else
      let rest2 := rest.drop host.length
      let path := rest2.takeWhile (fun c => c ≠ '?' ∧ c ≠ '#')
      if ¬ path.all isPathCharU then none
      else
        let rest3 := rest2.drop path.length
        match rest3 with
        | [] =>
          some ⟨(jsToLower (String.mk sch)).toList, (jsToLower (String.mk host)).toList,
            path, none, none⟩
        | c :: r =>
          if c = '?' then
            let q := r.takeWhile (fun c => c ≠ '#')
            if ¬ q.all isQueryCharU then none
            else
              match r.drop q.length with
              | [] =>
                some ⟨(jsToLower (String.mk sch)).toList,
                  (jsToLower (String.mk host)).toList, path, some q, none⟩
              | _ :: fr =>
                if fr.all isQueryCharU then
                  some ⟨(jsToLower (String.mk sch)).toList,
                    (jsToLower (String.mk host)).toList, path, some q, some fr⟩
                else none
          else
            if r.all isQueryCharU then
              some ⟨(jsToLower (String.mk sch)).toList,
                (jsToLower (String.mk host)).toList, path, none, some r⟩
            else none

/-- `url.toString()`: the serializer; an empty path of a special scheme
serializes as `/`. -/
def urlToString (u : UrlRec) : String :=
  String.mk (u.scheme ++ ':' :: '/' :: '/' :: u.host
    ++ (if u.path = [] then ['/'] else u.path)
    ++ (match u.query with | none => [] | some q => '?' :: q)
    ++ (match u.fragment with | none => [] | some f => '#' :: f))

/-- Split a raw query on `&`. -/
def splitAmp : List Char → List (List Char)
  | [] => [[]]
  | c :: cs =>
    let r := splitAmp cs
    if c = '&' then [] :: r
    else
      match r with
      | [] => [[c]]
      | h :: t => (c :: h) :: t

/-- `application/x-www-form-urlencoded` percent-decoding of one chunk into
bytes: `+` is a space, `%` followed by two hex digits is a byte, anything
else stands for itself; an invalid `%` stays literal. -/
def formDecodeBytes : Nat → List Char → List Nat
  | 0, _ => []
  | _ + 1, [] => []
  | f + 1, c :: cs =>
    if c = '+' then 32 :: formDecodeBytes f cs
    else if c = '%' then
      match cs with
      | a :: b :: cs2 =>
        match hexDigitVal a, hexDigitVal b with
        | some ha, some hb => (16 * ha + hb) :: formDecodeBytes f cs2
        | _, _ => c.toNat :: formDecodeBytes f cs
      | _ => c.toNat :: formDecodeBytes f cs
    else c.toNat :: formDecodeBytes f cs

def decodeChunk (part : List Char) : List Nat :=
  formDecodeBytes (part.length + 1) part

/-- `URLSearchParams` parsing of a raw query: split on `&`, skip empty
segments, split each segment at its first `=`, percent-decode both halves. -/
def parseParamsBytes (q : List Char) : List (List Nat × List Nat) :=
  ((splitAmp q).filter (fun p => p ≠ [])).map (fun part =>
    (decodeChunk (part.takeWhile (fun c => c ≠ '=')),
     decodeChunk (part.drop ((part.takeWhile (fun c => c ≠ '=')).length + 1))))

/-- Bytes `URLSearchParams` serialization leaves unescaped
(`[A-Za-z0-9*\-._]`). -/
def isFormSafeByte (b : Nat) : Bool :=
  (48 ≤ b && b ≤ 57) || (65 ≤ b && b ≤ 90) || (97 ≤ b && b ≤ 122) ||
  b == 42 || b == 45 || b == 46 || b == 95

def formEncodeByte (b : Nat) : List Char :=
  if b = 32 then ['+']
  else if isFormSafeByte b then [Char.ofNat b]
  else percentByte b

def formEncodeBytes (bs : List Nat) : List Char :=
  (bs.map formEncodeByte).flatten

/-- `searchParams.set`: replace the first pair with the name and drop the
rest, or append when absent. -/
def setFirstParam : List (List Nat × List Nat) → List Nat → List Nat →
    List (List Nat × List Nat)
  | [], n, v => [(n, v)]
  | p :: ps, n, v =>
    if p.1 = n then (n, v) :: ps.filter (fun q => q.1 ≠ n)
    else p :: setFirstParam ps n v

/-- `URLSearchParams` serialization: `name=value` pairs joined by `&`. -/
def serializeParams : List (List Nat × List Nat) → List Char
  | [] => []
  | [p] => formEncodeBytes p.1 ++ '=' :: formEncodeBytes p.2
  | p :: ps => formEncodeBytes p.1 ++ '=' :: formEncodeBytes p.2 ++ '&' :: serializeParams ps

def redirectNameBytes : List Nat := "redirect_url".toList.map Char.toNat

def hasParamNamed (q : List Char) (n : List Nat) : Bool :=
  (parseParamsBytes q).any (fun p => p.1 == n)

/-- `searchParams.get`: decoded value of the first pair with the name. -/
def getParamValue (q : List Char) (n : List Nat) : Option (List Nat) :=
  ((parseParamsBytes q).filter (fun p => p.1 = n)).head?.map (fun p => p.2)

/-- `withRedirectUrlParam` from Chat.tsx over the URL model: on the modelled
fragment the `URL` constructor succeeds and the `searchParams` branchwork
runs; outside it the JS falls into resolution/recovery behavior the model
leaves at `href`. -/
def withRedirectUrlParam (href redirectUrl : String) : String :=
  if href = "" then href
  else
    match parseUrl href with
    | none => href
    | some u =>
      if hasParamNamed (u.query.getD []) redirectNameBytes then urlToString u
      else
        let nq := serializeParams (setFirstParam (parseParamsBytes (u.query.getD []))
          redirectNameBytes (utf8Str redirectUrl))
        urlToString { u with query := some nq }

/-- The cta href of `MessageContent`: augmented only when both the current
page URL and the item url are truthy. -/
def ctaHref (url redirectUrl : String) : String :=
  if redirectUrl ≠ "" ∧ url ≠ "" then withRedirectUrlParam url redirectUrl else url

/-- C3 fails as stated: a cta url that already carries `redirect_url` is
returned via `url.toString()`, which normalizes the URL — here the empty
path serializes as `/` — so the href is not the original url string. -/
theorem claim_C3_counterexample :
    ctaHref "https://x.com?redirect_url=a" "https://page.example/p"
        = "https://x.com/?redirect_url=a"
    ∧ ctaHref "https://x.com?redirect_url=a" "https://page.example/p"
        ≠ "https://x.com?redirect_url=a"
    ∧ hasParamNamed ("redirect_url=a".toList) redirectNameBytes = true := by
  refine ⟨by rfl, by decide, by rfl⟩

theorem hexDigitVal_hexDigitUpper (n : Nat) (h : n < 16) :
    hexDigitVal (hexDigitUpper n) = some n := by
  interval_cases n <;> decide

theorem hexDigitVal_lt (c : Char) (v : Nat) (h : hexDigitVal c = some v) : v < 16 := by
  unfold hexDigitVal at h
  have hc := char_toNat_lt c
  split_ifs at h with h1 h2 h3 <;> injection h with h <;> subst h
  · have hb2 : c.val.toNat ≤ ('9' : Char).val.toNat := h1.2
    have hb3 : ('9' : Char).val.toNat = 57 := rfl
    have hcv : c.toNat = c.val.toNat := rfl
    show c.toNat - 48 < 16
    rw [hcv]
    omega
  · have hb2 : c.val.toNat ≤ ('f' : Char).val.toNat := h2.2
    have hb3 : ('f' : Char).val.toNat = 102 := rfl
    have hcv : c.toNat = c.val.toNat := rfl
    show c.toNat - 87 < 16
    rw [hcv]
    omega
  · have hb2 : c.val.toNat ≤ ('F' : Char).val.toNat := h3.2
    have hb3 : ('F' : Char).val.toNat = 70 := rfl
    have hcv : c.toNat = c.val.toNat := rfl
    show c.toNat - 55 < 16
    rw [hcv]
    omega

theorem formDecodeBytes_encode : ∀ (bs : List Nat) (f : Nat), (∀ b ∈ bs, b < 256) →
    bs.length < f → formDecodeBytes f (formEncodeBytes bs) = bs := by
  intro bs
  induction bs with
  | nil =>
    intro f _ hf
    obtain ⟨g, rfl⟩ : ∃ g, f = g + 1 := ⟨f - 1, by omega⟩
    rfl
  | cons b bs ih =>
    intro f hb hf
    obtain ⟨g, rfl⟩ : ∃ g, f = g + 1 := ⟨f - 1, by omega⟩
    have hb0 : b < 256 := hb b (List.mem_cons_self _ _)
    have hbs : ∀ x ∈ bs, x < 256 := fun x hx => hb x (List.mem_cons_of_mem _ hx)
    have hg : bs.length < g := by
      simp only [List.length_cons] at hf
      omega
    simp only [formEncodeBytes, List.map_cons, List.flatten_cons]
    by_cases h32 : b = 32
    · subst h32
      show formDecodeBytes (g + 1) ('+' :: (bs.map formEncodeByte).flatten) = 32 :: bs
      rw [show (bs.map formEncodeByte).flatten = formEncodeBytes bs from rfl]
      have hstep : formDecodeBytes (g + 1) ('+' :: formEncodeBytes bs)
          = 32 :: formDecodeBytes g (formEncodeBytes bs) := by
        simp [formDecodeBytes]
      rw [hstep, ih g hbs hg]
    · by_cases hsafe : isFormSafeByte b = true
      · have hrange : b ≠ 43 ∧ b ≠ 37 ∧ b < 256 := by
          simp [isFormSafeByte] at hsafe
          omega
        have henc : formEncodeByte b = [Char.ofNat b] := by
          rw [formEncodeByte, if_neg h32, if_pos hsafe]
        rw [henc]
        show formDecodeBytes (g + 1) (Char.ofNat b :: (bs.map formEncodeByte).flatten)
          = b :: bs
        rw [show (bs.map formEncodeByte).flatten = formEncodeBytes bs from rfl]
        have hne1 : Char.ofNat b ≠ '+' := by
          intro h
          have h2 := congrArg Char.toNat h
          rw [char_toNat_ofNat b (by omega)] at h2
          have : Char.toNat '+' = 43 := rfl
          omega
        have hne2 : Char.ofNat b ≠ '%' := by
          intro h
          have h2 := congrArg Char.toNat h
          rw [char_toNat_ofNat b (by omega)] at h2
          have : Char.toNat '%' = 37 := rfl
          omega
        have hstep : formDecodeBytes (g + 1) (Char.ofNat b :: formEncodeBytes bs)
            = (Char.ofNat b).toNat :: formDecodeBytes g (formEncodeBytes bs) := by
          simp [formDecodeBytes, hne1, hne2]
        rw [hstep, char_toNat_ofNat b (by omega), ih g hbs hg]
      · have henc : formEncodeByte b = percentByte b := by
          rw [formEncodeByte, if_neg h32, if_neg hsafe]
        rw [henc, percentByte]
        show formDecodeBytes (g + 1) ('%' :: hexDigitUpper (b / 16) :: hexDigitUpper (b % 16)
          :: (bs.map formEncodeByte).flatten) = b :: bs
        rw [show (bs.map formEncodeByte).flatten = formEncodeBytes bs from rfl]
        have hstep : formDecodeBytes (g + 1) ('%' :: hexDigitUpper (b / 16)
            :: hexDigitUpper (b % 16) :: formEncodeBytes bs)
            = (16 * (b / 16) + b % 16) :: formDecodeBytes g (formEncodeBytes bs) := by
          simp [formDecodeBytes, hexDigitVal_hexDigitUpper (b / 16) (by omega),
            hexDigitVal_hexDigitUpper (b % 16) (by omega)]
        rw [hstep, show 16 * (b / 16) + b % 16 = b from by omega, ih g hbs hg]

theorem splitAmp_no_amp : ∀ xs : List Char, (∀ c ∈ xs, c ≠ '&') →
    splitAmp xs = [xs] := by
  intro xs
  induction xs with
  | nil => intro _; rfl
  | cons c cs ih =>
    intro h
    have hc : c ≠ '&' := h c (List.mem_cons_self _ _)
    have hcs := ih (fun x hx => h x (List.mem_cons_of_mem _ hx))
    simp only [splitAmp, hcs, if_neg hc]

theorem splitAmp_chunk : ∀ (xs ys : List Char), (∀ c ∈ xs, c ≠ '&') →
    splitAmp (xs ++ '&' :: ys) = xs :: splitAmp ys := by
  intro xs ys
  induction xs with
  | nil => intro _; simp [splitAmp]
  | cons c cs ih =>
    intro h
    have hc : c ≠ '&' := h c (List.mem_cons_self _ _)
    have hcs := ih (fun x hx => h x (List.mem_cons_of_mem _ hx))
    simp only [List.cons_append, splitAmp, if_neg hc, List.append_eq]
    rw [hcs]

theorem splitAmp_mem : ∀ (q part : List Char), part ∈ splitAmp q →
    ∀ c ∈ part, c ∈ q := by
  intro q
  induction q with
  | nil =>
    intro part hp c hc
    simp [splitAmp] at hp
    subst hp
    simp at hc
  | cons d q ih =>
    intro part hp c hc
    simp only [splitAmp] at hp
    by_cases hd : d = '&'
    · rw [if_pos hd] at hp
      rcases List.mem_cons.mp hp with h | h
      · subst h; simp at hc
      · exact List.mem_cons_of_mem _ (ih part h c hc)
    · rw [if_neg hd] at hp
      rcases hsp : splitAmp q with _ | ⟨h0, t0⟩
      · rw [hsp] at hp
        rcases List.mem_cons.mp hp with h | h
        · subst h
          rcases List.mem_cons.mp hc with h | h
          · exact h ▸ List.mem_cons_self _ _
          · simp at h
        · simp at h
      · rw [hsp] at hp
        rcases List.mem_cons.mp hp with h | h
        · subst h
          rcases List.mem_cons.mp hc with h | h
          · exact h ▸ List.mem_cons_self _ _
          · exact List.mem_cons_of_mem _
              (ih h0 (hsp ▸ List.mem_cons_self _ _) c h)
        · exact List.mem_cons_of_mem _
            (ih part (hsp ▸ List.mem_cons_of_mem _ h) c hc)

theorem takeWhile_append_stop (p : Char → Bool) :
    ∀ (xs : List Char) (y : Char) (ys : List Char), (∀ x ∈ xs, p x = true) →
    p y = false → (xs ++ y :: ys).takeWhile p = xs := by
  intro xs y ys
  induction xs with
  | nil =>
    intro _ hy
    simp [List.takeWhile_cons, hy]
  | cons x xs ih =>
    intro hxs hy
    have hx : p x = true := hxs x (List.mem_cons_self _ _)
    simp only [List.cons_append, List.takeWhile_cons, hx, if_true]
    rw [ih (fun a ha => hxs a (List.mem_cons_of_mem _ ha)) hy]

theorem drop_append_cons (xs : List Char) (y : Char) (ys : List Char) :
    (xs ++ y :: ys).drop (xs.length + 1) = ys := by
  have h : xs ++ y :: ys = (xs ++ [y]) ++ ys := by simp
  have hl : (xs ++ [y]).length = xs.length + 1 := by simp
  rw [h, ← hl, List.drop_left]

theorem hexDigitUpper_ne (n : Nat) (h : n < 16) :
    hexDigitUpper n ≠ '&' ∧ hexDigitUpper n ≠ '=' := by
  interval_cases n <;> exact ⟨by decide, by decide⟩

theorem formEncodeByte_chars (b : Nat) (hb : b < 256) :
    ∀ c ∈ formEncodeByte b, c ≠ '&' ∧ c ≠ '=' := by
  intro c hc
  unfold formEncodeByte at hc
  split_ifs at hc with h32 hsafe
  · simp at hc
    subst hc
    exact ⟨by decide, by decide⟩
  · simp at hc
    subst hc
    have hrange : b ≠ 38 ∧ b ≠ 61 := by
      simp [isFormSafeByte] at hsafe
      omega
    constructor
    · intro h
      have h2 := congrArg Char.toNat h
      rw [char_toNat_ofNat b (by omega)] at h2
      have : Char.toNat '&' = 38 := rfl
      omega
    · intro h
      have h2 := congrArg Char.toNat h
      rw [char_toNat_ofNat b (by omega)] at h2
      have : Char.toNat '=' = 61 := rfl
      omega
  · rw [percentByte] at hc
    simp at hc
    rcases hc with hc | hc | hc
    · subst hc; exact ⟨by decide, by decide⟩
    · subst hc; exact hexDigitUpper_ne (b / 16) (by omega)
    · subst hc; exact hexDigitUpper_ne (b % 16) (by omega)

theorem formEncodeBytes_chars (bs : List Nat) (hb : ∀ b ∈ bs, b < 256) :
    ∀ c ∈ formEncodeBytes bs, c ≠ '&' ∧ c ≠ '=' := by
  intro c hc
  simp only [formEncodeBytes, List.mem_flatten, List.mem_map] at hc
  obtain ⟨l, ⟨b, hbmem, hbl⟩, hcl⟩ := hc
  exact formEncodeByte_chars b (hb b hbmem) c (hbl ▸ hcl)

theorem formEncodeBytes_length_ge (bs : List Nat) :
    bs.length ≤ (formEncodeBytes bs).length := by
  induction bs with
  | nil => simp [formEncodeBytes]
  | cons b bs ih =>
    simp only [formEncodeBytes, List.map_cons, List.flatten_cons, List.length_append,
      List.length_cons]
    have h1 : 1 ≤ (formEncodeByte b).length := by
      unfold formEncodeByte
      split_ifs <;> simp [percentByte]
    have h2 : bs.length ≤ ((bs.map formEncodeByte).flatten).length := ih
    omega

theorem parseParamsBytes_single (n v : List Nat) (hn : ∀ b ∈ n, b < 256)
    (hv : ∀ b ∈ v, b < 256) :
    parseParamsBytes (formEncodeBytes n ++ '=' :: formEncodeBytes v) = [(n, v)] := by
  have hamp : ∀ c ∈ formEncodeBytes n ++ '=' :: formEncodeBytes v, c ≠ '&' := by
    intro c hc
    rcases List.mem_append.mp hc with h | h
    · exact (formEncodeBytes_chars n hn c h).1
    · rcases List.mem_cons.mp h with h | h
      · subst h; decide
      · exact (formEncodeBytes_chars v hv c h).1
  have hne : formEncodeBytes n ++ '=' :: formEncodeBytes v ≠ [] := by
    intro h
    have h2 := congrArg List.length h
    simp at h2
  unfold parseParamsBytes
  rw [splitAmp_no_amp _ hamp]
  have hfil : ([formEncodeBytes n ++ '=' :: formEncodeBytes v].filter
      (fun p => p ≠ [])) = [formEncodeBytes n ++ '=' :: formEncodeBytes v] := by
    simp [hne]
  rw [hfil, List.map_cons, List.map_nil]
  have hname : (formEncodeBytes n ++ '=' :: formEncodeBytes v).takeWhile
      (fun c => c ≠ '=') = formEncodeBytes n := by
    apply takeWhile_append_stop
    · intro x hx
      simp [(formEncodeBytes_chars n hn x hx).2]
    · simp
  rw [hname, drop_append_cons]
  have h1 : decodeChunk (formEncodeBytes n) = n := by
    unfold decodeChunk
    exact formDecodeBytes_encode n _ hn
      (by have := formEncodeBytes_length_ge n; omega)
  have h2 : decodeChunk (formEncodeBytes v) = v := by
    unfold decodeChunk
    exact formDecodeBytes_encode v _ hv
      (by have := formEncodeBytes_length_ge v; omega)
  rw [h1, h2]

theorem parseParamsBytes_cons_chunk (n v : List Nat) (rest : List Char)
    (hn : ∀ b ∈ n, b < 256) (hv : ∀ b ∈ v, b < 256) :
    parseParamsBytes (formEncodeBytes n ++ '=' :: (formEncodeBytes v ++ '&' :: rest))
      = (n, v) :: parseParamsBytes rest := by
  have hassoc : formEncodeBytes n ++ '=' :: (formEncodeBytes v ++ '&' :: rest)
      = (formEncodeBytes n ++ '=' :: formEncodeBytes v) ++ '&' :: rest := by
    simp
  have hamp : ∀ c ∈ formEncodeBytes n ++ '=' :: formEncodeBytes v, c ≠ '&' := by
    intro c hc
    rcases List.mem_append.mp hc with h | h
    · exact (formEncodeBytes_chars n hn c h).1
    · rcases List.mem_cons.mp h with h | h
      · subst h; decide
      · exact (formEncodeBytes_chars v hv c h).1
  have hne : formEncodeBytes n ++ '=' :: formEncodeBytes v ≠ [] := by
    intro h
    have h2 := congrArg List.length h
    simp at h2
  unfold parseParamsBytes
  rw [hassoc, splitAmp_chunk _ _ hamp, List.filter_cons, if_pos (by simp [hne]),
    List.map_cons]
  have hname : (formEncodeBytes n ++ '=' :: formEncodeBytes v).takeWhile
      (fun c => c ≠ '=') = formEncodeBytes n := by
    apply takeWhile_append_stop
    · intro x hx
      simp [(formEncodeBytes_chars n hn x hx).2]
    · simp
  rw [hname, drop_append_cons]
  have h1 : decodeChunk (formEncodeBytes n) = n := by
    unfold decodeChunk
    exact formDecodeBytes_encode n _ hn
      (by have := formEncodeBytes_length_ge n; omega)
  have h2 : decodeChunk (formEncodeBytes v) = v := by
    unfold decodeChunk
    exact formDecodeBytes_encode v _ hv
      (by have := formEncodeBytes_length_ge v; omega)
  rw [h1, h2]

theorem parseParamsBytes_serialize : ∀ ps : List (List Nat × List Nat),
    (∀ pr ∈ ps, (∀ b ∈ pr.1, b < 256) ∧ (∀ b ∈ pr.2, b < 256)) →
    parseParamsBytes (serializeParams ps) = ps := by
  intro ps
  induction ps with
  | nil => intro _; rfl
  | cons p ps ih =>
    intro h
    have hp := h p (List.mem_cons_self _ _)
    cases ps with
    | nil =>
      show parseParamsBytes (formEncodeBytes p.1 ++ '=' :: formEncodeBytes p.2) = [p]
      rw [parseParamsBytes_single p.1 p.2 hp.1 hp.2]
    | cons q ps' =>
      have hser : serializeParams (p :: q :: ps')
          = formEncodeBytes p.1 ++ '=' :: (formEncodeBytes p.2
            ++ '&' :: serializeParams (q :: ps')) := by
        simp [serializeParams]
      rw [hser, parseParamsBytes_cons_chunk p.1 p.2 _ hp.1 hp.2,
        ih (fun pr hpr => h pr (List.mem_cons_of_mem _ hpr))]

theorem mem_setFirstParam : ∀ (ps : List (List Nat × List Nat)) (n v : List Nat) pr,
    pr ∈ setFirstParam ps n v → pr = (n, v) ∨ pr ∈ ps := by
  intro ps n v
  induction ps with
  | nil =>
    intro pr hpr
    simp [setFirstParam] at hpr
    exact Or.inl hpr
  | cons p ps ih =>
    intro pr hpr
    simp only [setFirstParam] at hpr
    by_cases hp : p.1 = n
    · rw [if_pos hp] at hpr
      rcases List.mem_cons.mp hpr with h | h
      · exact Or.inl h
      · exact Or.inr (List.mem_cons_of_mem _ (List.mem_of_mem_filter h))
    · rw [if_neg hp] at hpr
      rcases List.mem_cons.mp hpr with h | h
      · exact Or.inr (h ▸ List.mem_cons_self _ _)
      · rcases ih pr h with h2 | h2
        · exact Or.inl h2
        · exact Or.inr (List.mem_cons_of_mem _ h2)

theorem filter_head_setFirstParam : ∀ (ps : List (List Nat × List Nat)) (n v : List Nat),
    ((setFirstParam ps n v).filter (fun p => p.1 = n)).head? = some (n, v) := by
  intro ps n v
  induction ps with
  | nil =>
    show ([(n, v)].filter (fun p => p.1 = n)).head? = some (n, v)
    simp
  | cons p ps ih =>
    simp only [setFirstParam]
    by_cases hp : p.1 = n
    · rw [if_pos hp, List.filter_cons, if_pos (by simp)]
      rfl
    · rw [if_neg hp, List.filter_cons, if_neg (by simp [hp])]
      exact ih

theorem formDecodeBytes_lt : ∀ (f : Nat) (cs : List Char), (∀ c ∈ cs, c.toNat < 256) →
    ∀ b ∈ formDecodeBytes f cs, b < 256 := by
  intro f
  induction f with
  | zero =>
    intro cs _ b hb
    simp [formDecodeBytes] at hb
  | succ g ih =>
    intro cs hcs b hb
    cases cs with
    | nil => simp [formDecodeBytes] at hb
    | cons c cs' =>
      have hc : c.toNat < 256 := hcs c (List.mem_cons_self _ _)
      have hcs' : ∀ x ∈ cs', x.toNat < 256 :=
        fun x hx => hcs x (List.mem_cons_of_mem _ hx)
      simp only [formDecodeBytes] at hb
      by_cases h1 : c = '+'
      · rw [if_pos h1] at hb
        rcases List.mem_cons.mp hb with h | h
        · omega
        · exact ih cs' hcs' b h
      · rw [if_neg h1] at hb
        by_cases h2 : c = '%'
        · rw [if_pos h2] at hb
          match cs', hcs' with
          | [], hcs' =>
            rcases List.mem_cons.mp hb with h | h
            · omega
            · exact ih [] hcs' b h
          | [a], hcs' =>
            rcases List.mem_cons.mp hb with h | h
            · omega
            · exact ih [a] hcs' b h
          | a :: b2 :: cs3, hcs' =>
            have hb2 : b ∈ (match hexDigitVal a, hexDigitVal b2 with
              | some ha, some hbv => (16 * ha + hbv) :: formDecodeBytes g cs3
              | _, _ => c.toNat :: formDecodeBytes g (a :: b2 :: cs3)) := hb
            rcases hda : hexDigitVal a with _ | va <;> rw [hda] at hb2
            · rcases List.mem_cons.mp hb2 with h | h
              · omega
              · exact ih (a :: b2 :: cs3) hcs' b h
            · rcases hdb : hexDigitVal b2 with _ | vb <;> rw [hdb] at hb2
              · rcases List.mem_cons.mp hb2 with h | h
                · omega
                · exact ih (a :: b2 :: cs3) hcs' b h
              · rcases List.mem_cons.mp hb2 with h | h
                · have hva := hexDigitVal_lt a va hda
                  have hvb := hexDigitVal_lt b2 vb hdb
                  omega
                · exact ih cs3 (fun x hx => hcs' x
                    (List.mem_cons_of_mem _ (List.mem_cons_of_mem _ hx))) b h
        · rw [if_neg h2] at hb
          rcases List.mem_cons.mp hb with h | h
          · omega
          · exact ih cs' hcs' b h

theorem isQueryCharU_lt (c : Char) (h : isQueryCharU c = true) : c.toNat < 256 := by
  simp [isQueryCharU, isPathCharU] at h
  omega

theorem parseParamsBytes_bounds (q : List Char) (hq : ∀ c ∈ q, c.toNat < 256) :
    ∀ pr ∈ parseParamsBytes q, (∀ b ∈ pr.1, b < 256) ∧ (∀ b ∈ pr.2, b < 256) := by
  intro pr hpr
  unfold parseParamsBytes at hpr
  simp only [List.mem_map, List.mem_filter] at hpr
  obtain ⟨part, ⟨hmem, _⟩, hpr⟩ := hpr
  have hpart : ∀ c ∈ part, c.toNat < 256 :=
    fun c hc => hq c (splitAmp_mem q part hmem c hc)
  rw [← hpr]
  constructor
  · intro b hb
    exact formDecodeBytes_lt _ _
      (fun c hc => hpart c ((List.takeWhile_prefix _).subset hc)) b hb
  · intro b hb
    exact formDecodeBytes_lt _ _
      (fun c hc => hpart c (List.drop_subset _ _ hc)) b hb

theorem parseUrl_query_chars (url : String) (r : UrlRec) (hr : parseUrl url = some r) :
    ∀ c ∈ r.query.getD [], isQueryCharU c = true := by
  simp only [parseUrl] at hr
  split at hr
  · exact absurd hr (by simp)
  · split at hr
    · exact absurd hr (by simp)
    · split at hr
      · exact absurd hr (by simp)
      · split at hr
        · exact absurd hr (by simp)
        · split at hr
          · injection hr with hr
            subst hr
            intro c hc
            simp at hc
          · split at hr
            · split at hr
              · exact absurd hr (by simp)
              · rename_i hq
                split at hr
                · injection hr with hr
                  subst hr
                  intro c hc
                  exact List.all_eq_true.mp (not_not.mp hq) c hc
                · split at hr
                  · injection hr with hr
                    subst hr
                    intro c hc
                    exact List.all_eq_true.mp (not_not.mp hq) c hc
                  · exact absurd hr (by simp)
            · split at hr
              · injection hr with hr
                subst hr
                intro c hc
                simp at hc
              · exact absurd hr (by simp)

/-- C3, amended: on absolute `http`/`https` cta urls with both page URL and
item url non-empty, a url already carrying a `redirect_url` query parameter
is passed through `url.toString()` — its components (query included) are
preserved but the string is the URL serializer's output, not necessarily the
original url text; otherwise the href is the same URL with its query
replaced by the re-serialized parameters in which `redirect_url` now decodes
to exactly the page URL's bytes. -/
theorem claim_C3_amended (url p : String) (r : UrlRec)
    (hp : p ≠ "") (hu : url ≠ "") (hr : parseUrl url = some r) :
    (hasParamNamed (r.query.getD []) redirectNameBytes = true →
        ctaHref url p = urlToString r)
    ∧ (hasParamNamed (r.query.getD []) redirectNameBytes = false →
        ∃ nq, ctaHref url p = urlToString { r with query := some nq }
          ∧ getParamValue nq redirectNameBytes = some (utf8Str p)) := by
  have hcta : ctaHref url p = withRedirectUrlParam url p := by
    rw [ctaHref, if_pos ⟨hp, hu⟩]
  constructor
  · intro hhas
    rw [hcta]
    simp only [withRedirectUrlParam, if_neg hu, hr]
    rw [if_pos hhas]
  · intro hhas
    refine ⟨serializeParams (setFirstParam (parseParamsBytes (r.query.getD []))
      redirectNameBytes (utf8Str p)), ?_, ?_⟩
    · rw [hcta]
      simp only [withRedirectUrlParam, if_neg hu, hr, hhas, Bool.false_eq_true,
        if_false]
    · have hqb : ∀ c ∈ r.query.getD [], c.toNat < 256 :=
        fun c hc => isQueryCharU_lt c (parseUrl_query_chars url r hr c hc)
      have hbounds : ∀ pr ∈ setFirstParam (parseParamsBytes (r.query.getD []))
          redirectNameBytes (utf8Str p),
          (∀ b ∈ pr.1, b < 256) ∧ (∀ b ∈ pr.2, b < 256) := by
        intro pr hpr
        rcases mem_setFirstParam _ _ _ pr hpr with h | h
        · subst h
          constructor
          · intro b hb
            have : ∀ b ∈ redirectNameBytes, b < 256 := by decide
            exact this b hb
          · intro b hb
            simp only [utf8Str, List.mem_flatten, List.mem_map] at hb
            obtain ⟨l, ⟨c, _, hcl⟩, hbl⟩ := hb
            exact utf8Bytes_lt_256 c b (hcl ▸ hbl)
        · exact parseParamsBytes_bounds _ hqb pr h
      rw [getParamValue, parseParamsBytes_serialize _ hbounds,
        filter_head_setFirstParam]
      rfl

/-- Witness for the amended C3: a url without `redirect_url` gets the page
URL appended as its `redirect_url` parameter. -/
theorem claim_C3_amended_witness :
    ∃ nq, ctaHref "https://x.com/a" "https://page.example/p"
        = urlToString
            { scheme := "https".toList, host := "x.com".toList,
              path := "/a".toList, query := some nq, fragment := none }
      ∧ getParamValue nq redirectNameBytes = some (utf8Str "https://page.example/p") :=
  (claim_C3_amended "https://x.com/a" "https://page.example/p"
    { scheme := "https".toList, host := "x.com".toList, path := "/a".toList,
      query := none, fragment := none }
    (by decide) (by decide) (by rfl)).2 (by rfl)
